import Mathlib

/-!
Verification of the pronunciation-assessment core of the
PowerApps-Localport-Bridge repository.

The embedded code comes from
`phoneme-service/app/services/vowel_assessor.py` and
`phoneme-service/app/services/alignment_service.py`.  Python floats are
modelled as rationals; Python's `round(x, 3)` (round half to even) and
`int(x)` (truncation) are modelled explicitly.  The sequence comparison
uses the standard library's `difflib.SequenceMatcher` with `isjunk=None`
and `autojunk=True`; that algorithm (including the autojunk popularity
filter, which `isjunk=None` leaves out of `bjunk`) is embedded below in
the `SeqMatch` namespace.  Bounded `while` loops are written with an
explicit fuel argument that is always at least the number of iterations
the Python loop performs, so the fueled function agrees with the loop on
every input.
-/

/-- Integer core of Python's `round`: round to nearest, ties to even. -/
def rndHalfEven (x : ℚ) : ℤ :=
  if x - ⌊x⌋ < 1/2 then ⌊x⌋
  else if (1 : ℚ)/2 < x - ⌊x⌋ then ⌊x⌋ + 1
  else if ⌊x⌋ % 2 = 0 then ⌊x⌋ else ⌊x⌋ + 1

/-- Python's `round(q, 3)`. -/
def pyRound3 (q : ℚ) : ℚ := (rndHalfEven (1000 * q) : ℚ) / 1000

/-- Python's `int(q)`: truncation toward zero. -/
def pyTrunc (q : ℚ) : ℤ := if q < 0 then ⌈q⌉ else ⌊q⌋

namespace SeqMatch

/-- All indices at which `x` occurs in `b`, ascending: `difflib`'s `b2j`
entry for `x` before the autojunk filter. -/
def positionsIn (b : List String) (x : String) : List Nat :=
  (List.range b.length).filter (fun j => b.getD j "" = x)

/-- `difflib` autojunk: when `len(b) >= 200`, elements occurring more than
`len(b) // 100 + 1` times are dropped from `b2j` (they are recorded in
`bpopular`, not in `bjunk`, so the junk-extension loops ignore them). -/
def isPopular (b : List String) (x : String) : Bool :=
  decide (200 ≤ b.length) && decide (b.length / 100 + 1 < (positionsIn b x).length)

/-- `difflib`'s `b2j` lookup with the autojunk filter applied. -/
def b2jOf (b : List String) (x : String) : List Nat :=
  if isPopular b x then [] else positionsIn b x

/-- The running best match of `find_longest_match`. -/
structure Best where
  bi : Nat
  bj : Nat
  bk : Nat
deriving DecidableEq

/-- Inner loop of `find_longest_match`: one row `i`, scanning the candidate
columns `j` ascending; `k = j2len.get(j-1, 0) + 1` reads the previous row. -/
def flmInner (i : Nat) (oldRow : Nat → Nat) :
    List Nat → (Nat → Nat) → Best → ((Nat → Nat) × Best)
  | [], newRow, best => (newRow, best)
  | j :: js, newRow, best =>
    let k := (if j = 0 then 0 else oldRow (j - 1)) + 1
    let newRow' : Nat → Nat := fun j' => if j' = j then k else newRow j'
    let best' : Best := if best.bk < k then ⟨i + 1 - k, j + 1 - k, k⟩ else best
    flmInner i oldRow js newRow' best'

/-- Outer loop of `find_longest_match` over the rows `range(alo, ahi)`;
`continue`/`break` on the ascending column list are the range filter. -/
def flmRows (a : List String) (bb : String → List Nat) (blo bhi : Nat) :
    List Nat → (Nat → Nat) → Best → Best
  | [], _, best => best
  | i :: rest, oldRow, best =>
    let js := (bb (a.getD i "")).filter (fun j => decide (blo ≤ j) && decide (j < bhi))
    let st := flmInner i oldRow js (fun _ => 0) best
    flmRows a bb blo bhi rest st.1 st.2

/-- The `while` loop extending the best match backwards over equal, non-junk
elements (`bjunk` is empty since `isjunk is None`).  Each iteration lowers
`bi` by one and requires `alo < bi`, so fuel `bi` is never exhausted early. -/
def extendBack (a b : List String) (alo blo : Nat) : Nat → Best → Best
  | 0, best => best
  | fuel + 1, best =>
    if alo < best.bi ∧ blo < best.bj ∧ a.getD (best.bi - 1) "" = b.getD (best.bj - 1) "" then
      extendBack a b alo blo fuel ⟨best.bi - 1, best.bj - 1, best.bk + 1⟩
    else best

/-- The `while` loop extending the best match forwards; each iteration
raises `bj + bk` by one and requires `bj + bk < bhi`, so fuel `bhi` is
never exhausted early. -/
def extendFwd (a b : List String) (ahi bhi : Nat) : Nat → Best → Best
  | 0, best => best
  | fuel + 1, best =>
    if best.bi + best.bk < ahi ∧ best.bj + best.bk < bhi ∧
        a.getD (best.bi + best.bk) "" = b.getD (best.bj + best.bk) "" then
      extendFwd a b ahi bhi fuel ⟨best.bi, best.bj, best.bk + 1⟩
    else best

/-- `find_longest_match(alo, ahi, blo, bhi)`; the two junk-extension loops
are omitted because `bjunk` is empty when `isjunk is None`. -/
def findLongestMatch (a b : List String) (bb : String → List Nat)
    (alo ahi blo bhi : Nat) : Best :=
  let m0 := flmRows a bb blo bhi (List.range' alo (ahi - alo)) (fun _ => 0) ⟨alo, blo, 0⟩
  let m1 := extendBack a b alo blo m0.bi m0
  extendFwd a b ahi bhi bhi m1

/-- The recursive block collection of `get_matching_blocks` (the Python
queue plus final sort produce exactly this in-order traversal).  The fuel
bounds the recursion depth; `(ahi - alo) + (bhi - blo) + 1` suffices. -/
def matchingBlocksRec (a b : List String) (bb : String → List Nat) :
    Nat → Nat → Nat → Nat → Nat → List (Nat × Nat × Nat)
  | 0, _, _, _, _ => []
  | fuel + 1, alo, ahi, blo, bhi =>
    let m := findLongestMatch a b bb alo ahi blo bhi
    if m.bk = 0 then []
    else
      matchingBlocksRec a b bb fuel alo m.bi blo m.bj
        ++ [(m.bi, m.bj, m.bk)]
        ++ matchingBlocksRec a b bb fuel (m.bi + m.bk) ahi (m.bj + m.bk) bhi

/-- The adjacent-block merge at the end of `get_matching_blocks`. -/
def mergeAdjAux : Nat → Nat → Nat → List (Nat × Nat × Nat) → List (Nat × Nat × Nat)
  | i1, j1, k1, [] => if k1 ≠ 0 then [(i1, j1, k1)] else []
  | i1, j1, k1, (i2, j2, k2) :: rest =>
    if i1 + k1 = i2 ∧ j1 + k1 = j2 then mergeAdjAux i1 j1 (k1 + k2) rest
    else (if k1 ≠ 0 then [(i1, j1, k1)] else []) ++ mergeAdjAux i2 j2 k2 rest

/-- `get_matching_blocks()`: merged non-adjacent blocks plus the
`(len(a), len(b), 0)` sentinel. -/
def getMatchingBlocks (a b : List String) : List (Nat × Nat × Nat) :=
  mergeAdjAux 0 0 0
      (matchingBlocksRec a b (b2jOf b) (a.length + b.length + 1) 0 a.length 0 b.length)
    ++ [(a.length, b.length, 0)]

/-- One entry of `get_opcodes()`. -/
structure Opcode where
  tag : String
  i1 : Nat
  i2 : Nat
  j1 : Nat
  j2 : Nat
deriving DecidableEq

/-- The opcode walk of `get_opcodes()` over the matching blocks. -/
def opcodeWalk : Nat → Nat → List (Nat × Nat × Nat) → List Opcode
  | _, _, [] => []
  | i, j, (ai, bj, size) :: rest =>
    let gap : List Opcode :=
      if i < ai ∧ j < bj then [⟨"replace", i, ai, j, bj⟩]
      else if i < ai then [⟨"delete", i, ai, j, bj⟩]
      else if j < bj then [⟨"insert", i, ai, j, bj⟩]
      else []
    let eqOps : List Opcode :=
      if size ≠ 0 then [⟨"equal", ai, ai + size, bj, bj + size⟩] else []
    gap ++ eqOps ++ opcodeWalk (ai + size) (bj + size) rest

/-- `get_opcodes()`. -/
def getOpcodes (a b : List String) : List Opcode :=
  opcodeWalk 0 0 (getMatchingBlocks a b)

def sumSizes (blocks : List (Nat × Nat × Nat)) : Nat :=
  (blocks.map (fun t => t.2.2)).sum

/-- `ratio()`: `2*M / (len(a)+len(b))`, with `_calculate_ratio`'s guard
returning `1.0` when both sequences are empty. -/
def ratioOf (a b : List String) : ℚ :=
  if a.length + b.length = 0 then 1
  else (2 * (sumSizes (getMatchingBlocks a b) : ℚ)) / ((a.length : ℚ) + (b.length : ℚ))

end SeqMatch

/-! ## Vowel assessor (`vowel_assessor.py`) -/

/-- Metadata of one vowel in `IPA_VOWELS` (the Python field `example` is
called `exWord` because `example` is a Lean keyword). -/
structure IPAMeta where
  name : String
  exWord : String
  difficulty : String
deriving DecidableEq

/-- The `IPA_VOWELS` table, in source order. -/
def IPA_VOWELS : List (String × IPAMeta) :=
  [("ɪ", ⟨"short i", "bit", "high"⟩),
   ("ɛ", ⟨"short e", "bet", "medium"⟩),
   ("æ", ⟨"short a", "bat", "high"⟩),
   ("ɑ", ⟨"short o", "bot", "medium"⟩),
   ("ʌ", ⟨"short u", "but", "high"⟩),
   ("ʊ", ⟨"short oo", "book", "high"⟩),
   ("ə", ⟨"schwa", "about", "high"⟩),
   ("i", ⟨"long ee", "beat", "low"⟩),
   ("iː", ⟨"long ee", "beat", "low"⟩),
   ("u", ⟨"long oo", "boot", "low"⟩),
   ("uː", ⟨"long oo", "boot", "low"⟩),
   ("ɔ", ⟨"aw", "bought", "medium"⟩),
   ("ɔː", ⟨"aw", "bought", "medium"⟩),
   ("ɜ", ⟨"ur", "bird", "high"⟩),
   ("ɜː", ⟨"ur", "bird", "high"⟩),
   ("ɑː", ⟨"ah", "father", "medium"⟩),
   ("eɪ", ⟨"long a", "bait", "medium"⟩),
   ("oʊ", ⟨"long o", "boat", "medium"⟩),
   ("aɪ", ⟨"long i", "bite", "medium"⟩),
   ("aʊ", ⟨"ow", "bout", "medium"⟩),
   ("ɔɪ", ⟨"oy", "boy", "low"⟩),
   ("ɪə", ⟨"ear", "beer", "high"⟩),
   ("eə", ⟨"air", "bear", "high"⟩),
   ("ʊə", ⟨"oor", "poor", "high"⟩)]

/-- The `ARPABET_VOWELS` map. -/
def ARPABET_VOWELS : List (String × String) :=
  [("AA", "ɑ"), ("AE", "æ"), ("AH", "ʌ"), ("AO", "ɔ"), ("AW", "aʊ"),
   ("AY", "aɪ"), ("EH", "ɛ"), ("ER", "ɜ"), ("EY", "eɪ"), ("IH", "ɪ"),
   ("IY", "i"), ("OW", "oʊ"), ("OY", "ɔɪ"), ("UH", "ʊ"), ("UW", "u")]

/-- `x in IPA_VOWELS` (Python dict key membership). -/
def isIpaVowel (s : String) : Bool := (IPA_VOWELS.lookup s).isSome

/-- `IPA_VOWELS.get(s, {}).get('name', s)`. -/
def ipaName (s : String) : String :=
  match IPA_VOWELS.lookup s with
  | some m => m.name
  | none => s

/-- `IPA_VOWELS.get(s, {}).get('example', '')`. -/
def ipaExampleWord (s : String) : String :=
  match IPA_VOWELS.lookup s with
  | some m => m.exWord
  | none => ""

/-- `IPA_VOWELS.get(s, {}).get('difficulty', 'medium')`. -/
def ipaDifficulty (s : String) : String :=
  match IPA_VOWELS.lookup s with
  | some m => m.difficulty
  | none => "medium"

/-- `VowelAssessor._extract_vowels`: left-to-right scan, testing the
two-symbol diphthong first, then the single symbol. -/
def extractVowels : List String → List String
  | [] => []
  | [p] => if isIpaVowel p then [p] else []
  | p :: q :: rest =>
    if isIpaVowel (p ++ q) then (p ++ q) :: extractVowels rest
    else if isIpaVowel p then p :: extractVowels (q :: rest)
    else extractVowels (q :: rest)

/-- Instrumented variant of `_extract_vowels` recording, for each emitted
vowel, the index interval `(start, width)` of the input it consumed. -/
def extractVowelsSpans (i : Nat) : List String → List (Nat × Nat)
  | [] => []
  | [p] => if isIpaVowel p then [(i, 1)] else []
  | p :: q :: rest =>
    if isIpaVowel (p ++ q) then (i, 2) :: extractVowelsSpans (i + 2) rest
    else if isIpaVowel p then (i, 1) :: extractVowelsSpans (i + 1) (q :: rest)
    else extractVowelsSpans (i + 1) (q :: rest)

/-- One error record produced by `_compare_vowel_sequences`.  Keys that a
given branch does not set are `none`. -/
structure VErr where
  position : Nat
  expected : Option String
  actual : Option String
  error_type : String
  expected_name : Option String
  actual_name : Option String
deriving DecidableEq

/-- Python slice `l[i1:i2]`. -/
def sliceOf (l : List String) (i1 i2 : Nat) : List String := (l.drop i1).take (i2 - i1)

/-- The error records `_compare_vowel_sequences` appends for one opcode. -/
def errsOfOp (expected actual : List String) (op : SeqMatch.Opcode) : List VErr :=
  if op.tag = "replace" then
    ((sliceOf expected op.i1 op.i2).zip (sliceOf actual op.j1 op.j2)).enum.map
      (fun ke => ⟨op.i1 + ke.1, some ke.2.1, some ke.2.2, "substitution",
        some (ipaName ke.2.1), some (ipaName ke.2.2)⟩)
  else if op.tag = "delete" then
    (sliceOf expected op.i1 op.i2).enum.map
      (fun ke => ⟨op.i1 + ke.1, some ke.2, none, "missing", some (ipaName ke.2), none⟩)
  else if op.tag = "insert" then
    (sliceOf actual op.j1 op.j2).enum.map
      (fun ke => ⟨op.i1, none, some ke.2, "insertion", none, some (ipaName ke.2)⟩)
  else []

/-- `VowelAssessor._compare_vowel_sequences`. -/
def compareVowelSequences (expected actual : List String) : ℚ × List VErr :=
  if expected = [] then (1, [])
  else
    (SeqMatch.ratioOf expected actual,
     (SeqMatch.getOpcodes expected actual).foldl
       (fun acc op => acc ++ errsOfOp expected actual op) [])

/-- The per-vowel record accumulated by `_identify_focus_areas`. -/
structure FocusInfo where
  count : Nat
  name : String
  exWord : String
  difficulty : String
deriving DecidableEq

/-- One iteration of the tally loop of `_identify_focus_areas`: insert the
vowel with count 0 (and its metadata) if absent, then increment. -/
def bumpTally (t : List (String × FocusInfo)) (v : String) : List (String × FocusInfo) :=
  if (t.lookup v).isSome then
    t.map (fun p => if p.1 = v then (p.1, ⟨p.2.count + 1, p.2.name, p.2.exWord, p.2.difficulty⟩) else p)
  else
    t ++ [(v, ⟨1, ipaName v, ipaExampleWord v, ipaDifficulty v⟩)]

/-- The tally loop: errors with a falsy `expected` (absent, `None` or the
empty string) are skipped; Python dicts preserve insertion order. -/
def tallyErrors (errors : List VErr) : List (String × FocusInfo) :=
  errors.foldl
    (fun t e => match e.expected with
      | some v => if v ≠ "" then bumpTally t v else t
      | none => t) []

/-- `difficulty_order.get(d, 1)` with `{'high': 0, 'medium': 1, 'low': 2}`. -/
def difficultyRank (d : String) : Nat :=
  if d = "high" then 0 else if d = "medium" then 1 else if d = "low" then 2 else 1

/-- The sort order of `sorted(..., key=lambda x: (-count, difficulty_rank))`. -/
def focusLE (x y : String × FocusInfo) : Prop :=
  y.2.count < x.2.count ∨
    (x.2.count = y.2.count ∧ difficultyRank x.2.difficulty ≤ difficultyRank y.2.difficulty)

instance : DecidableRel focusLE := fun x y => by
  unfold focusLE; exact inferInstance

/-- The apostrophe character, used by the focus-area format string. -/
def apos : String := String.singleton (Char.ofNat 39)

/-- The f-string `"/{vowel}/ ({name}) - as in '{example}' - {count} error(s)"`. -/
def focusLine (v : String) (info : FocusInfo) : String :=
  "/" ++ v ++ "/ (" ++ info.name ++ ") - as in " ++ apos ++ info.exWord ++ apos
    ++ " - " ++ toString info.count ++ " error(s)"

/-- `VowelAssessor._identify_focus_areas`.  Python's `sorted` is a stable
ascending sort by key, which is exactly `List.insertionSort` with the
non-strict key order `focusLE`. -/
def identifyFocusAreas (errors : List VErr) : List String :=
  ((List.insertionSort focusLE (tallyErrors errors)).take 3).map
    (fun p => focusLine p.1 p.2)

/-- `re.sub(r'[012]', '', p)`. -/
def stripStress (p : String) : String :=
  String.mk (p.toList.filter (fun c => decide (c ≠ '0' ∧ c ≠ '1' ∧ c ≠ '2')))

/-- Python's `p.strip()` (written over the character list so that it
evaluates in the kernel). -/
def pyStrip (s : String) : String :=
  String.mk (((s.toList.dropWhile Char.isWhitespace).reverse.dropWhile
    Char.isWhitespace).reverse)

/-- Python's `p.startswith(' ')`. -/
def startsWithSpace (s : String) : Bool :=
  match s.toList with
  | [] => false
  | c :: _ => c = ' '

/-- Python's `p.lower()` (the mapped symbols here are ASCII ARPAbet). -/
def pyLower (s : String) : String := String.mk (s.toList.map Char.toLower)

/-- `VowelAssessor._text_to_phonemes`, parametric over the external
grapheme-to-phoneme collaborator `g2p` (`g2p_en.G2p`). -/
def textToPhonemes (g2p : String → List String) (text : String) : String × List String :=
  let arpabet := g2p text
  let phonemeList := arpabet.filter (fun p => decide (pyStrip p ≠ "") && !(startsWithSpace p))
  let ipaList := phonemeList.map (fun p =>
    let baseP := stripStress p
    match ARPABET_VOWELS.lookup baseP with
    | some v => v
    | none => pyLower baseP)
  (String.intercalate " " ipaList, ipaList)

/-- One word-timing span from the word-aligner collaborator
(`{word, start, end, score}`; `end` is a Lean keyword, hence `stop`). -/
structure WordAlign where
  word : String
  start : ℚ
  stop : ℚ
  score : ℚ
deriving DecidableEq

/-- A vowel error after the timing-attachment loop of `assess`; the three
timing keys stay `none` when the loop does not set them. -/
structure TimedErr where
  position : Nat
  expected : Option String
  actual : Option String
  error_type : String
  expected_name : Option String
  actual_name : Option String
  word : Option String
  timestamp_ms : Option Int
  end_timestamp_ms : Option Int
deriving DecidableEq

/-- The timing-attachment loop body of `assess`: the keys are only added
when `pos < len(word_alignments)` (the `else {}` of the inner conditional
expression is unreachable). -/
def attachTiming (word_alignments : List WordAlign) (e : VErr) : TimedErr :=
  if e.position < word_alignments.length then
    let wi := word_alignments.getD e.position ⟨"", 0, 0, 1⟩
    ⟨e.position, e.expected, e.actual, e.error_type, e.expected_name, e.actual_name,
      some wi.word, some (pyTrunc (wi.start * 1000)), some (pyTrunc (wi.stop * 1000))⟩
  else
    ⟨e.position, e.expected, e.actual, e.error_type, e.expected_name, e.actual_name,
      none, none, none⟩

/-- One entry of `word_details`. -/
structure WordDetail where
  word : String
  expected_phonemes : String
  expected_vowels : List String
  start_ms : Int
  end_ms : Int
  confidence : ℚ
deriving DecidableEq

/-- Helper for `pySplit`: the accumulator holds the current word reversed. -/
def pySplitAux : List Char → List Char → List String
  | [], acc => if acc.isEmpty then [] else [String.mk acc.reverse]
  | c :: cs, acc =>
    if c.isWhitespace then
      (if acc.isEmpty then [] else [String.mk acc.reverse]) ++ pySplitAux cs []
    else pySplitAux cs (c :: acc)

/-- Python's `str.split()`: split on whitespace runs, dropping empties. -/
def pySplit (s : String) : List String := pySplitAux s.toList []

/-- The assessment record returned by `VowelAssessor.assess`. -/
structure Assessment where
  overall_score : ℚ
  vowel_score : ℚ
  vowel_errors : List TimedErr
  focus_areas : List String
  word_details : List WordDetail
  expected_phonemes : String
  expected_vowels : List String
  actual_vowels : List String
  total_vowels : Nat
  correct_vowels : Int
deriving DecidableEq

/-- `VowelAssessor.assess`, parametric over the `g2p` collaborator.  The
caller-supplied `expected_phonemes_arg` is immediately shadowed: the code
always regenerates expected phonemes from `expected_text`. -/
def assess (g2p : String → List String) (expected_text : String)
    (expected_phonemes_arg : Option String) (actual_phonemes : String)
    (actual_phoneme_list : List String) (word_alignments : List WordAlign)
    (focus_vowels : Option (List String)) : Assessment :=
  let tp := textToPhonemes g2p expected_text
  let expected_phonemes := tp.1
  let expected_list := tp.2
  let expected_vowels := extractVowels expected_list
  let actual_vowels := extractVowels actual_phoneme_list
  let overall_score := SeqMatch.ratioOf expected_list actual_phoneme_list
  let cv := compareVowelSequences expected_vowels actual_vowels
  let vowel_score := cv.1
  let vowel_errors := cv.2
  -- `focus_errors` is computed but never used below (dead variable in the
  -- source; `if focus_vowels:` is Python truthiness, so an empty list also
  -- takes the unfiltered branch).
  let focus_errors :=
    match focus_vowels with
    | some fv =>
      if fv = [] then vowel_errors
      else vowel_errors.filter (fun e =>
        decide (∃ v ∈ fv, e.expected = some v) || decide (∃ v ∈ fv, e.actual = some v))
    | none => vowel_errors
  let vowel_errors_with_timing := vowel_errors.map (attachTiming word_alignments)
  let words := pySplit expected_text
  let word_details := words.enum.map (fun iw =>
    let wp := textToPhonemes g2p iw.2
    let word_vowels := extractVowels wp.2
    if iw.1 < word_alignments.length then
      let timing := word_alignments.getD iw.1 ⟨"", 0, 0, 1⟩
      ⟨iw.2, wp.1, word_vowels, pyTrunc (timing.start * 1000),
        pyTrunc (timing.stop * 1000), timing.score⟩
    else
      (⟨iw.2, wp.1, word_vowels, 0, 0, 1⟩ : WordDetail))
  { overall_score := pyRound3 overall_score
    vowel_score := pyRound3 vowel_score
    vowel_errors := vowel_errors_with_timing
    focus_areas := identifyFocusAreas vowel_errors
    word_details := word_details
    expected_phonemes := expected_phonemes
    expected_vowels := expected_vowels
    actual_vowels := actual_vowels
    total_vowels := expected_vowels.length
    correct_vowels := (expected_vowels.length : Int) -
      ((vowel_errors.filter (fun e => decide (e.error_type ≠ "insertion"))).length : Int) }

/-! ## Alignment service (`alignment_service.py`) -/

/-- One timed phoneme segment (`end` is a Lean keyword, hence `stop`). -/
structure TimedSegment where
  phoneme : String
  start : ℚ
  stop : ℚ
  confidence : ℚ
deriving DecidableEq

/-- `np.mean` over a list of rationals. -/
def meanQ (l : List ℚ) : ℚ := l.sum / (l.length : ℚ)

/-- `current_phoneme and current_phoneme not in ['', '<pad>', '|']`,
negated: the run is discarded rather than emitted. -/
def isBlankTok (c : String) : Bool := c = "" || c = "<pad>" || c = "|"

/-- Close a run: emit it unless its symbol is blank. -/
def closeSeg (c : String) (segStart endTime : ℚ) (probs : List ℚ) : List TimedSegment :=
  if isBlankTok c then []
  else [⟨c, pyRound3 segStart, pyRound3 endTime, pyRound3 (meanQ probs)⟩]

/-- The frame loop of `extract_phonemes_with_timing`, over the zipped
(symbol, confidence) frames with running index `i`. -/
def collapseAux (fd dur : ℚ) :
    List (String × ℚ) → Nat → Option String → ℚ → List ℚ → List TimedSegment
  | [], _, cur, segStart, probs =>
    match cur with
    | some c => closeSeg c segStart dur probs
    | none => []
  | (ph, prob) :: rest, i, cur, segStart, probs =>
    if some ph ≠ cur then
      (match cur with
       | some c => closeSeg c segStart ((i : ℚ) * fd) probs
       | none => [])
        ++ collapseAux fd dur rest (i + 1) (some ph) ((i : ℚ) * fd) [prob]
    else
      collapseAux fd dur rest (i + 1) cur segStart (probs ++ [prob])

/-- `AlignmentService.extract_phonemes_with_timing`, starting from the
per-frame predicted symbols and confidences (the neural decode is the
acoustic collaborator); `frame_duration = audio_duration / num_frames`. -/
def extractPhonemesWithTiming (frames : List (String × ℚ)) (dur : ℚ) : List TimedSegment :=
  collapseAux (dur / (frames.length : ℚ)) dur frames 0 none 0 []

/-- The vowel groups of `AlignmentService._phonemes_similar`. -/
def vowelGroups : List (List String) :=
  [["i", "ɪ", "iː"], ["e", "ɛ", "eɪ"], ["æ", "a", "ɑ"], ["ɔ", "o", "oʊ", "ɒ"],
   ["u", "ʊ", "uː"], ["ə", "ʌ", "ɜ"]]

/-- The consonant groups of `AlignmentService._phonemes_similar`. -/
def consonantGroups : List (List String) :=
  [["t", "d"], ["p", "b"], ["k", "g"], ["f", "v"], ["s", "z"],
   ["θ", "ð"], ["ʃ", "ʒ"], ["tʃ", "dʒ"]]

/-- `AlignmentService._phonemes_similar`. -/
def phonemesSimilar (p1 p2 : String) : Bool :=
  vowelGroups.any (fun g => g.contains p1 && g.contains p2)
    || consonantGroups.any (fun g => g.contains p1 && g.contains p2)

/-- The per-symbol score of `get_phoneme_alignment`: `1.0` on equality,
otherwise `0.5` when `_phonemes_similar`, otherwise `0.0`. -/
def scorePair (expected detected : String) : ℚ :=
  let mt : ℚ := if detected = expected then 1 else 0
  if mt = 0 ∧ phonemesSimilar expected detected then 1/2 else mt


/-! ## Helper notions used by the claim statements -/

/-- Membership of two symbols in a common confusion group, as the spec
describes it (the code iterates the groups with an early return). -/
def inSameConfusionGroup (p q : String) : Prop :=
  (∃ g ∈ vowelGroups, p ∈ g ∧ q ∈ g) ∨ (∃ g ∈ consonantGroups, p ∈ g ∧ q ∈ g)

instance (p q : String) : Decidable (inSameConfusionGroup p q) := by
  unfold inSameConfusionGroup; exact inferInstance

lemma phonemesSimilar_iff (p q : String) :
    phonemesSimilar p q = true ↔ inSameConfusionGroup p q := by
  simp [phonemesSimilar, inSameConfusionGroup, List.any_eq_true]

/-- The last open run, if its symbol is not blank, is emitted as the last
segment with `end = round(audio_duration, 3)`. -/
lemma collapseAux_ends_at_dur (fd dur : ℚ) :
    ∀ (rest : List (String × ℚ)) (i : Nat) (cur : Option String) (segStart : ℚ)
      (probs : List ℚ) (ph : String) (conf : ℚ),
      rest.getLast? = some (ph, conf) → isBlankTok ph = false →
      ∃ pre seg, collapseAux fd dur rest i cur segStart probs = pre ++ [seg] ∧
        seg.phoneme = ph ∧ seg.stop = pyRound3 dur := by
  intro rest
  induction rest with
  | nil => intro i cur segStart probs ph conf h hb; simp at h
  | cons x rest ih =>
    obtain ⟨phx, px⟩ := x
    intro i cur segStart probs ph conf hlast hnb
    cases rest with
    | nil =>
      rw [List.getLast?_singleton] at hlast
      have h1 : phx = ph := by injection hlast with h2; injection h2 with h3 h4
      subst h1
      by_cases hc : some phx ≠ cur
      · cases cur with
        | none =>
          refine ⟨[], ⟨phx, pyRound3 ((i : ℚ) * fd), pyRound3 dur, pyRound3 (meanQ [px])⟩,
            ?_, rfl, rfl⟩
          simp only [collapseAux, if_pos hc]
          simp [closeSeg, hnb]
        | some c =>
          refine ⟨closeSeg c segStart ((i : ℚ) * fd) probs,
            ⟨phx, pyRound3 ((i : ℚ) * fd), pyRound3 dur, pyRound3 (meanQ [px])⟩, ?_, rfl, rfl⟩
          simp only [collapseAux, if_pos hc]
          simp [closeSeg, hnb]
      · have hcur : cur = some phx := (not_ne_iff.mp hc).symm
        subst hcur
        refine ⟨[], ⟨phx, pyRound3 segStart, pyRound3 dur, pyRound3 (meanQ (probs ++ [px]))⟩,
          ?_, rfl, rfl⟩
        simp only [collapseAux, if_neg hc]
        simp [closeSeg, hnb]
    | cons y rest' =>
      rw [List.getLast?_cons_cons] at hlast
      by_cases hc : some phx ≠ cur
      · obtain ⟨pre, seg, heq, hph, hstop⟩ :=
          ih (i + 1) (some phx) ((i : ℚ) * fd) [px] ph conf hlast hnb
        refine ⟨(match cur with
          | some c => closeSeg c segStart ((i : ℚ) * fd) probs
          | none => []) ++ pre, seg, ?_, hph, hstop⟩
        rw [collapseAux.eq_def]
        simp only [if_pos hc, heq, List.append_assoc]
        cases cur <;> rfl
      · obtain ⟨pre, seg, heq, hph, hstop⟩ :=
          ih (i + 1) cur segStart (probs ++ [px]) ph conf hlast hnb
        refine ⟨pre, seg, ?_, hph, hstop⟩
        rw [collapseAux.eq_def]
        simp only [if_neg hc, heq]

/-! ## Claim theorems -/

/-- C9: In per-symbol alignment scoring, an exact match scores 1.0, unequal
symbols in a common confusion group score 0.5, and unequal symbols in no
common group score 0.0; in particular score('t','t') = 1.0,
score('t','d') = 0.5, score('t','k') = 0.0. -/
theorem scorePair_confusion_spec :
    (∀ p q : String, scorePair p q =
      if q = p then 1 else if inSameConfusionGroup p q then 1/2 else 0) ∧
    scorePair "t" "t" = 1 ∧ scorePair "t" "d" = 1/2 ∧ scorePair "t" "k" = 0 := by
  refine ⟨fun p q => ?_, by norm_num +decide [scorePair, phonemesSimilar],
    by norm_num +decide [scorePair, phonemesSimilar],
    by norm_num +decide [scorePair, phonemesSimilar]⟩
  unfold scorePair
  by_cases h : q = p
  · simp [h]
  · simp only [if_neg h, true_and]
    by_cases hs : inSameConfusionGroup p q
    · rw [if_pos ((phonemesSimilar_iff p q).2 hs), if_pos hs]
    · rw [if_neg fun hc => hs ((phonemesSimilar_iff p q).1 hc), if_neg hs]

/-- C10: two assessments differing only in the caller-supplied
expected-phonemes string are identical: `assess` always regenerates the
expected phonemes from the expected text. -/
theorem assess_indep_expected_phonemes_arg (g2p : String → List String)
    (expected_text : String) (ep1 ep2 : Option String) (actual_phonemes : String)
    (actual_phoneme_list : List String) (word_alignments : List WordAlign)
    (focus_vowels : Option (List String)) :
    assess g2p expected_text ep1 actual_phonemes actual_phoneme_list word_alignments
        focus_vowels =
      assess g2p expected_text ep2 actual_phonemes actual_phoneme_list word_alignments
        focus_vowels := rfl

/-- C1 (code bug): with a focus-vowel filter supplied, the returned
vowel-error list still contains an error touching no focus vowel — the
filtered `focus_errors` list is computed but never used; indeed the whole
assessment is independent of `focus_vowels`. -/
theorem assess_focus_filter_unused_bug :
    ((assess (fun _ => ["IH1"]) "bit" none "i" ["i"] [] (some ["æ"])).vowel_errors =
        [⟨0, some "ɪ", some "i", "substitution", some "short i", some "long ee",
          none, none, none⟩] ∧
      ("ɪ" : String) ∉ (["æ"] : List String) ∧ ("i" : String) ∉ (["æ"] : List String)) ∧
    ∀ (g2p : String → List String) (expected_text : String) (ep : Option String)
      (actual_phonemes : String) (actual_phoneme_list : List String)
      (word_alignments : List WordAlign) (focus_vowels : Option (List String)),
      assess g2p expected_text ep actual_phonemes actual_phoneme_list word_alignments
          focus_vowels =
        assess g2p expected_text ep actual_phonemes actual_phoneme_list word_alignments
          none :=
  ⟨by decide, fun _ _ _ _ _ _ _ => rfl⟩

/-- C5 (code bug): when a vowel error's position is at or beyond the end of
the word-alignment list, the timing fields are absent from the returned
error record (not present with zero defaults). -/
theorem assess_outofrange_timing_omitted_bug :
    ((assess (fun _ => ["UH1"]) "book" none "u" ["u"] [] none).vowel_errors.map
        (fun e => (e.position, e.word, e.timestamp_ms, e.end_timestamp_ms)) =
      [(0, none, none, none)]) ∧
    ∀ (wa : List WordAlign) (e : VErr), wa.length ≤ e.position →
      (attachTiming wa e).word = none ∧ (attachTiming wa e).timestamp_ms = none ∧
        (attachTiming wa e).end_timestamp_ms = none := by
  refine ⟨by decide, fun wa e h => ?_⟩
  unfold attachTiming
  rw [if_neg (Nat.not_lt.2 h)]
  exact ⟨rfl, rfl, rfl⟩

theorem assess_outofrange_timing_omitted_bug_witness :
    (attachTiming [] ⟨0, some "ʊ", some "u", "substitution", none, none⟩).word = none :=
  (assess_outofrange_timing_omitted_bug.2 []
    ⟨0, some "ʊ", some "u", "substitution", none, none⟩ (by decide)).1

/-- C3 counterexample: collapsing `['p','p','t','t','t','<pad>']` with
duration 0.6 s and uniform confidence 0.9 makes the `'t'` segment end at
0.5 (the pad closes it at the pad's own start time), not at 0.6 as the
claim states. -/
theorem collapse_pad_example_cex :
    (extractPhonemesWithTiming
        [("p", 9/10), ("p", 9/10), ("t", 9/10), ("t", 9/10), ("t", 9/10), ("<pad>", 9/10)]
        (3/5)) =
      [⟨"p", 0, 1/5, 9/10⟩, ⟨"t", 1/5, 1/2, 9/10⟩] ∧ ((1 : ℚ)/2 ≠ 3/5) := by
  constructor
  · norm_num +decide [extractPhonemesWithTiming, collapseAux, closeSeg, isBlankTok, meanQ,
      pyRound3, rndHalfEven]
  · norm_num

/-- C3 corrected: the example collapses to `p:[0,0.2]` and `t:[0.2,0.5]`
(the trailing pad closes the `'t'` run at the pad's start time and is then
discarded); the final emitted run ends at `round(audio_duration, 3)`
exactly when the stream ends while a non-blank run is open. -/
theorem collapse_pad_example_amended :
    ((extractPhonemesWithTiming
        [("p", 9/10), ("p", 9/10), ("t", 9/10), ("t", 9/10), ("t", 9/10), ("<pad>", 9/10)]
        (3/5)) =
      [⟨"p", 0, 1/5, 9/10⟩, ⟨"t", 1/5, 1/2, 9/10⟩]) ∧
    ∀ (frames : List (String × ℚ)) (dur : ℚ) (ph : String) (conf : ℚ),
      frames.getLast? = some (ph, conf) → isBlankTok ph = false →
      ∃ pre seg, extractPhonemesWithTiming frames dur = pre ++ [seg] ∧
        seg.phoneme = ph ∧ seg.stop = pyRound3 dur := by
  constructor
  · norm_num +decide [extractPhonemesWithTiming, collapseAux, closeSeg, isBlankTok, meanQ,
      pyRound3, rndHalfEven]
  · intro frames dur ph conf hlast hnb
    exact collapseAux_ends_at_dur _ dur frames 0 none 0 [] ph conf hlast hnb

theorem collapse_pad_example_amended_witness :
    ∃ pre seg,
      extractPhonemesWithTiming [("t", 1)] 1 = pre ++ [seg] ∧
        seg.phoneme = "t" ∧ seg.stop = pyRound3 1 :=
  collapse_pad_example_amended.2 [("t", 1)] 1 "t" 1 (by decide) (by decide)

lemma join_one (a : String) : String.join [a] = a := by
  simp [String.join]

lemma join_two (a b : String) : String.join [a, b] = a ++ b := by
  simp [String.join]

lemma extractVowelsSpans_spec :
    ∀ (i : Nat) (ps : List String),
      extractVowels ps = (extractVowelsSpans i ps).map
        (fun sp => String.join ((ps.drop (sp.1 - i)).take sp.2)) ∧
      (extractVowelsSpans i ps).Chain' (fun sp tp => sp.1 + sp.2 ≤ tp.1) ∧
      ∀ sp ∈ extractVowelsSpans i ps, (sp.2 = 1 ∨ sp.2 = 2) ∧ i ≤ sp.1 ∧
        sp.1 + sp.2 ≤ i + ps.length := by
  intro i ps
  induction i, ps using extractVowelsSpans.induct with
  | case1 i => simp [extractVowels, extractVowelsSpans]
  | case2 i p hv =>
    refine ⟨?_, ?_, ?_⟩
    · simp [extractVowels, extractVowelsSpans, hv, join_one]
    · simp [extractVowelsSpans, hv]
    · simp [extractVowelsSpans, hv]
  | case3 i p hv =>
    refine ⟨?_, ?_, ?_⟩
    · simp [extractVowels, extractVowelsSpans, hv]
    · simp [extractVowelsSpans, hv]
    · simp [extractVowelsSpans, hv]
  | case4 i p q rest hd ih =>
    obtain ⟨ih1, ih2, ih3⟩ := ih
    refine ⟨?_, ?_, ?_⟩
    · simp only [extractVowels, extractVowelsSpans, if_pos hd, List.map_cons]
      rw [Nat.sub_self]
      have htake : ((p :: q :: rest).drop 0).take 2 = [p, q] := rfl
      rw [htake, join_two, ih1]
      congr 1
      refine List.map_congr_left (fun sp hsp => ?_)
      have h1 : i + 2 ≤ sp.1 := (ih3 sp hsp).2.1
      have h2 : sp.1 - i = (sp.1 - (i + 2)) + 2 := by omega
      rw [h2]
      rfl
    · simp only [extractVowelsSpans, if_pos hd]
      refine List.Chain'.cons' ih2 (fun y hy => ?_)
      have hm := ih3 y (List.mem_of_mem_head? hy)
      omega
    · simp only [extractVowelsSpans, if_pos hd]
      intro sp hsp
      rcases List.mem_cons.mp hsp with h | h
      · subst h
        refine ⟨Or.inr rfl, Nat.le_refl i, ?_⟩
        simp [List.length_cons]
      · have := ih3 sp h
        simp only [List.length_cons] at this ⊢
        omega
  | case5 i p q rest hd hv ih =>
    obtain ⟨ih1, ih2, ih3⟩ := ih
    refine ⟨?_, ?_, ?_⟩
    · simp only [extractVowels, extractVowelsSpans, if_neg hd, if_pos hv, List.map_cons]
      rw [Nat.sub_self]
      have htake : ((p :: q :: rest).drop 0).take 1 = [p] := rfl
      rw [htake, join_one, ih1]
      congr 1
      refine List.map_congr_left (fun sp hsp => ?_)
      have h1 : i + 1 ≤ sp.1 := (ih3 sp hsp).2.1
      have h2 : sp.1 - i = (sp.1 - (i + 1)) + 1 := by omega
      rw [h2]
      rfl
    · simp only [extractVowelsSpans, if_neg hd, if_pos hv]
      refine List.Chain'.cons' ih2 (fun y hy => ?_)
      have hm := ih3 y (List.mem_of_mem_head? hy)
      omega
    · simp only [extractVowelsSpans, if_neg hd, if_pos hv]
      intro sp hsp
      rcases List.mem_cons.mp hsp with h | h
      · subst h
        refine ⟨Or.inl rfl, Nat.le_refl i, ?_⟩
        simp [List.length_cons]
      · have := ih3 sp h
        simp only [List.length_cons] at this ⊢
        omega
  | case6 i p q rest hd hv ih =>
    obtain ⟨ih1, ih2, ih3⟩ := ih
    refine ⟨?_, ?_, ?_⟩
    · simp only [extractVowels, extractVowelsSpans, if_neg hd, if_neg hv]
      rw [ih1]
      refine List.map_congr_left (fun sp hsp => ?_)
      have h1 : i + 1 ≤ sp.1 := (ih3 sp hsp).2.1
      have h2 : sp.1 - i = (sp.1 - (i + 1)) + 1 := by omega
      rw [h2]
      rfl
    · simpa only [extractVowelsSpans, if_neg hd, if_neg hv] using ih2
    · simp only [extractVowelsSpans, if_neg hd, if_neg hv]
      intro sp hsp
      have := ih3 sp hsp
      simp only [List.length_cons] at this ⊢
      omega

/-- C7: the vowel extractor tests the two-symbol diphthong first; each
input position contributes to at most one emitted vowel (the consumed
spans are disjoint and in input order); `['b','a','ɪ','t']` yields
exactly `['aɪ']`. -/
theorem extractVowels_greedy_spec :
    extractVowels ["b", "a", "ɪ", "t"] = ["aɪ"] ∧
    ∀ ps : List String, ∃ spans : List (Nat × Nat),
      extractVowels ps = spans.map (fun sp => String.join ((ps.drop sp.1).take sp.2)) ∧
      spans.Chain' (fun sp tp => sp.1 + sp.2 ≤ tp.1) ∧
      ∀ sp ∈ spans, (sp.2 = 1 ∨ sp.2 = 2) ∧ sp.1 + sp.2 ≤ ps.length := by
  refine ⟨by decide, fun ps => ⟨extractVowelsSpans 0 ps, ?_, ?_, ?_⟩⟩
  · have h := (extractVowelsSpans_spec 0 ps).1
    simpa using h
  · exact (extractVowelsSpans_spec 0 ps).2.1
  · intro sp hsp
    have h := (extractVowelsSpans_spec 0 ps).2.2 sp hsp
    exact ⟨h.1, by omega⟩

lemma rndHalfEven_le (x : ℚ) : (rndHalfEven x : ℚ) ≤ x + 1/2 := by
  unfold rndHalfEven
  have h1 : (⌊x⌋ : ℚ) ≤ x := Int.floor_le x
  have h2 : x < ⌊x⌋ + 1 := Int.lt_floor_add_one x
  split_ifs with ha hb hc <;> push_cast <;> linarith

lemma le_rndHalfEven (x : ℚ) : x - 1/2 ≤ (rndHalfEven x : ℚ) := by
  unfold rndHalfEven
  have h1 : (⌊x⌋ : ℚ) ≤ x := Int.floor_le x
  have h2 : x < ⌊x⌋ + 1 := Int.lt_floor_add_one x
  split_ifs with ha hb hc <;> push_cast <;> linarith

lemma rndHalfEven_mono {x y : ℚ} (h : x ≤ y) : rndHalfEven x ≤ rndHalfEven y := by
  by_contra hlt
  push_neg at hlt
  have h1 := rndHalfEven_le x
  have h2 := le_rndHalfEven y
  have h3 : (rndHalfEven y : ℚ) + 1 ≤ (rndHalfEven x : ℚ) := by
    exact_mod_cast Int.add_one_le_iff.mpr hlt
  have hyx : y ≤ x := by linarith
  have hxy : x = y := le_antisymm h hyx
  rw [hxy] at hlt
  exact absurd hlt (lt_irrefl _)

lemma rndHalfEven_zero : rndHalfEven 0 = 0 := by
  norm_num [rndHalfEven]

lemma pyRound3_mono {x y : ℚ} (h : x ≤ y) : pyRound3 x ≤ pyRound3 y := by
  unfold pyRound3
  have := rndHalfEven_mono (x := 1000 * x) (y := 1000 * y) (by linarith)
  have hc : (rndHalfEven (1000 * x) : ℚ) ≤ (rndHalfEven (1000 * y) : ℚ) := by exact_mod_cast this
  linarith

lemma pyRound3_nonneg {x : ℚ} (h : 0 ≤ x) : 0 ≤ pyRound3 x := by
  have h0 : pyRound3 0 = 0 := by
    unfold pyRound3
    rw [show (1000 : ℚ) * 0 = 0 by ring, rndHalfEven_zero]
    norm_num
  calc (0 : ℚ) = pyRound3 0 := h0.symm
    _ ≤ pyRound3 x := pyRound3_mono h

lemma pyRound3_le (x : ℚ) : pyRound3 x ≤ x + 1/2000 := by
  unfold pyRound3
  have := rndHalfEven_le (1000 * x)
  linarith

/-- Invariants of the frame loop: every emitted segment has
`0 ≤ start ≤ end ≤ dur + 1/2000`, its start is at least the rounded
current run start, and the segments come out ordered by start. -/
lemma collapseAux_bounds (fd dur : ℚ) (hfd : 0 ≤ fd) :
    ∀ (rest : List (String × ℚ)) (i : Nat) (cur : Option String) (segStart : ℚ)
      (probs : List ℚ),
      0 ≤ segStart → segStart ≤ (i : ℚ) * fd → ((i : ℚ) + rest.length) * fd ≤ dur →
      (∀ seg ∈ collapseAux fd dur rest i cur segStart probs,
        0 ≤ seg.start ∧ seg.start ≤ seg.stop ∧ seg.stop ≤ dur + 1/2000 ∧
          pyRound3 segStart ≤ seg.start) ∧
      (collapseAux fd dur rest i cur segStart probs).Chain' (fun s t => s.start ≤ t.start) := by
  intro rest
  induction rest with
  | nil =>
    intro i cur segStart probs h0 hle hbound
    have hsd : segStart ≤ dur := by
      have : (i : ℚ) * fd ≤ dur := by
        have : ((i : ℚ) + 0) * fd ≤ dur := by simpa using hbound
        simpa using this
      linarith
    constructor
    · intro seg hseg
      cases cur with
      | none => simp [collapseAux] at hseg
      | some c =>
        simp only [collapseAux, closeSeg] at hseg
        by_cases hb : isBlankTok c
        · simp [hb] at hseg
        · simp only [hb, Bool.false_eq_true, if_false, List.mem_singleton] at hseg
          subst hseg
          refine ⟨pyRound3_nonneg h0, pyRound3_mono hsd, ?_, le_refl _⟩
          exact pyRound3_le dur
    · cases cur with
      | none => simp [collapseAux]
      | some c =>
        simp only [collapseAux, closeSeg]
        split_ifs <;> simp
  | cons x rest ih =>
    intro i cur segStart probs h0 hle hbound
    obtain ⟨phx, px⟩ := x
    have hstep : ((i : ℚ)) * fd ≤ dur := by
      have hlen : (0 : ℚ) ≤ (rest.length : ℚ) + 1 := by positivity
      have : ((i : ℚ) + ((phx, px) :: rest).length) * fd ≤ dur := hbound
      simp only [List.length_cons] at this
      push_cast at this
      nlinarith
    have hisucc : segStart ≤ ((i : ℚ) + 1) * fd := by nlinarith
    have hboundr : ((i : ℚ) + 1 + (rest.length : ℚ)) * fd ≤ dur := by
      have : ((i : ℚ) + ((phx, px) :: rest).length) * fd ≤ dur := hbound
      simp only [List.length_cons] at this
      push_cast at this
      nlinarith
    by_cases hc : some phx ≠ cur
    · have hnew0 : (0 : ℚ) ≤ (i : ℚ) * fd := by positivity
      have hrec := ih (i + 1) (some phx) ((i : ℚ) * fd) [px] hnew0 (by push_cast; nlinarith)
        (by push_cast; nlinarith)
      constructor
      · intro seg hseg
        rw [collapseAux.eq_def] at hseg
        simp only [if_pos hc] at hseg
        rcases List.mem_append.mp hseg with hm | hm
        · cases cur with
          | none => simp at hm
          | some c =>
            simp only [closeSeg] at hm
            by_cases hb : isBlankTok c
            · simp [hb] at hm
            · simp only [hb, Bool.false_eq_true, if_false, List.mem_singleton] at hm
              subst hm
              refine ⟨pyRound3_nonneg h0, pyRound3_mono hle, ?_, le_refl _⟩
              calc pyRound3 ((i : ℚ) * fd) ≤ (i : ℚ) * fd + 1/2000 := pyRound3_le _
                _ ≤ dur + 1/2000 := by linarith
        · have := hrec.1 seg hm
          refine ⟨this.1, this.2.1, this.2.2.1, ?_⟩
          calc pyRound3 segStart ≤ pyRound3 ((i : ℚ) * fd) := pyRound3_mono hle
            _ ≤ seg.start := this.2.2.2
      · rw [collapseAux.eq_def]
        simp only [if_pos hc]
        cases cur with
        | none =>
          simpa using hrec.2
        | some c =>
          simp only [closeSeg]
          by_cases hb : isBlankTok c
          · simpa [hb] using hrec.2
          · simp only [hb, Bool.false_eq_true, if_false, List.singleton_append]
            refine List.Chain'.cons' hrec.2 (fun y hy => ?_)
            have hmem := List.mem_of_mem_head? hy
            have := hrec.1 y hmem
            calc pyRound3 segStart ≤ pyRound3 ((i : ℚ) * fd) := pyRound3_mono hle
              _ ≤ y.start := this.2.2.2
    · have hrec := ih (i + 1) cur segStart (probs ++ [px]) h0
        (by push_cast; nlinarith) (by push_cast; nlinarith)
      constructor
      · intro seg hseg
        rw [collapseAux.eq_def] at hseg
        simp only [if_neg hc] at hseg
        exact hrec.1 seg hseg
      · rw [collapseAux.eq_def]
        simp only [if_neg hc]
        exact hrec.2

lemma nat_mul_div_le (n : Nat) (dur : ℚ) (hd : 0 ≤ dur) : (n : ℚ) * (dur / (n : ℚ)) ≤ dur := by
  rcases Nat.eq_zero_or_pos n with h | h
  · subst h; simpa using hd
  · have hn : (n : ℚ) ≠ 0 := by
      exact_mod_cast Nat.pos_iff_ne_zero.mp h
    field_simp

/-- C6 counterexample: one frame `'p'` with duration 0.0006 s yields the
segment `{p, start 0, end 0.001}` whose end exceeds the audio duration —
rounding the timestamps to 3 decimals can overshoot `audio_duration`. -/
theorem collapse_bounds_cex :
    extractPhonemesWithTiming [("p", 1)] (3/5000) = [⟨"p", 0, 1/1000, 1⟩] ∧
    ¬((1 : ℚ)/1000 ≤ 3/5000) := by
  constructor
  · norm_num +decide [extractPhonemesWithTiming, collapseAux, closeSeg, isBlankTok, meanQ,
      pyRound3, rndHalfEven]
  · norm_num

/-- C6 corrected: for a non-negative duration every emitted segment has
`0 ≤ start ≤ end ≤ audio_duration + 1/2000` (the 3-decimal rounding can
overshoot the duration by at most half a thousandth), and the segment
list is ordered by `start`. -/
theorem collapse_bounds_amended :
    ∀ (frames : List (String × ℚ)) (dur : ℚ), 0 ≤ dur →
      (∀ seg ∈ extractPhonemesWithTiming frames dur,
        0 ≤ seg.start ∧ seg.start ≤ seg.stop ∧ seg.stop ≤ dur + 1/2000) ∧
      (extractPhonemesWithTiming frames dur).Chain' (fun s t => s.start ≤ t.start) := by
  intro frames dur hd
  have hfd : 0 ≤ dur / (frames.length : ℚ) := by positivity
  have h := collapseAux_bounds (dur / (frames.length : ℚ)) dur hfd frames 0 none 0 []
    (le_refl 0) (by simp) (by simpa using nat_mul_div_le frames.length dur hd)
  exact ⟨fun seg hs => ⟨(h.1 seg hs).1, (h.1 seg hs).2.1, (h.1 seg hs).2.2.1⟩, h.2⟩

theorem collapse_bounds_amended_witness :
    (∀ seg ∈ extractPhonemesWithTiming [("a", 1)] 1,
      0 ≤ seg.start ∧ seg.start ≤ seg.stop ∧ seg.stop ≤ 1 + 1/2000) ∧
    (extractPhonemesWithTiming [("a", 1)] 1).Chain' (fun s t => s.start ≤ t.start) :=
  collapse_bounds_amended [("a", 1)] 1 (by norm_num)

namespace SeqMatch

/-- Chain values of a `j2len` row are bounded by the window origin. -/
def RowBound (alo blo iBound : Nat) (row : Nat → Nat) : Prop :=
  ∀ j, row j ≠ 0 → row j + alo ≤ iBound ∧ row j + blo ≤ j + 1

/-- Range facts maintained for the running best match. -/
def BestOK (alo blo bhi iBound : Nat) (m : Best) : Prop :=
  alo ≤ m.bi ∧ blo ≤ m.bj ∧ m.bj + m.bk ≤ bhi ∧
    (m.bk ≠ 0 → m.bi + m.bk ≤ iBound) ∧ (m.bk = 0 → m.bi = alo ∧ m.bj = blo)

lemma BestOK.mono {alo blo bhi i i' : Nat} {m : Best} (h : BestOK alo blo bhi i m)
    (hle : i ≤ i') : BestOK alo blo bhi i' m :=
  ⟨h.1, h.2.1, h.2.2.1, fun hk => le_trans (h.2.2.2.1 hk) hle, h.2.2.2.2⟩

lemma step_best (alo blo bhi i j k : Nat) (best : Best)
    (hk1 : k + alo ≤ i + 1) (hk2 : k + blo ≤ j + 1) (hjhi : j < bhi)
    (hbest : BestOK alo blo bhi (i + 1) best) :
    BestOK alo blo bhi (i + 1)
      (if best.bk < k then (⟨i + 1 - k, j + 1 - k, k⟩ : Best) else best) := by
  split_ifs with hupd
  · obtain ⟨hb1, hb2, hb3, hb4, hb5⟩ := hbest
    refine ⟨?_, ?_, ?_, fun _ => ?_, fun h => ?_⟩ <;> dsimp only at * <;> omega
  · exact hbest

lemma flmInner_inv (i : Nat) (oldRow : Nat → Nat) (alo blo bhi : Nat)
    (hai : alo ≤ i) (hold : RowBound alo blo i oldRow) :
    ∀ (js : List Nat) (newRow : Nat → Nat) (best : Best),
      (∀ j ∈ js, blo ≤ j ∧ j < bhi) →
      RowBound alo blo (i + 1) newRow → BestOK alo blo bhi (i + 1) best →
      RowBound alo blo (i + 1) (flmInner i oldRow js newRow best).1 ∧
        BestOK alo blo bhi (i + 1) (flmInner i oldRow js newRow best).2 := by
  intro js
  induction js with
  | nil => intro newRow best hjs hnew hbest; exact ⟨hnew, hbest⟩
  | cons j js ih =>
    intro newRow best hjs hnew hbest
    obtain ⟨hjlo, hjhi⟩ := hjs j (List.mem_cons_self j js)
    have hjs' : ∀ x ∈ js, blo ≤ x ∧ x < bhi := fun x hx => hjs x (List.mem_cons_of_mem j hx)
    have hm : (if j = 0 then 0 else oldRow (j - 1)) + alo ≤ i ∧
        (if j = 0 then 0 else oldRow (j - 1)) + blo ≤ j := by
      by_cases hj0 : j = 0
      · rw [if_pos hj0]
        subst hj0
        exact ⟨by omega, by omega⟩
      · rw [if_neg hj0]
        by_cases h0 : oldRow (j - 1) = 0
        · rw [h0]
          exact ⟨by omega, by omega⟩
        · have h := hold (j - 1) h0
          have hj1 : j - 1 + 1 = j := Nat.succ_pred_eq_of_pos (Nat.pos_of_ne_zero hj0)
          exact ⟨by omega, by omega⟩
    simp only [flmInner]
    refine ih _ _ hjs' (fun j' hj' => ?_) ?_
    · simp only at hj' ⊢
      by_cases hjj : j' = j
      · rw [if_pos hjj] at hj' ⊢
        subst hjj
        exact ⟨by omega, by omega⟩
      · rw [if_neg hjj] at hj' ⊢
        exact hnew j' hj'
    · exact step_best alo blo bhi i j _ best (by omega) (by omega) hjhi hbest

lemma flmRows_inv (a : List String) (bb : String → List Nat) (alo blo bhi : Nat) :
    ∀ (len start : Nat) (oldRow : Nat → Nat) (best : Best),
      alo ≤ start →
      RowBound alo blo start oldRow → BestOK alo blo bhi start best →
      BestOK alo blo bhi (start + len)
        (flmRows a bb blo bhi (List.range' start len) oldRow best) := by
  intro len
  induction len with
  | zero => intro start oldRow best h1 h2 h3; simpa using h3
  | succ n ih =>
    intro start oldRow best h1 h2 h3
    rw [List.range'_succ]
    simp only [flmRows]
    have hjs : ∀ j ∈ (bb (a.getD start "")).filter
        (fun j => decide (blo ≤ j) && decide (j < bhi)), blo ≤ j ∧ j < bhi := by
      intro j hj
      have := List.of_mem_filter hj
      simp only [Bool.and_eq_true, decide_eq_true_eq] at this
      exact this
    have hstep := flmInner_inv start oldRow alo blo bhi h1 h2 _ (fun _ => 0) best hjs
      (fun j hj => absurd rfl hj) (h3.mono (Nat.le_succ start))
    have := ih (start + 1) _ _ (by omega) hstep.1 hstep.2
    have harith : start + 1 + n = start + (n + 1) := by omega
    rwa [harith] at this

lemma extendBack_inv (a b : List String) (alo blo : Nat) :
    ∀ (fuel : Nat) (m : Best), alo ≤ m.bi → blo ≤ m.bj →
      alo ≤ (extendBack a b alo blo fuel m).bi ∧
        blo ≤ (extendBack a b alo blo fuel m).bj ∧
        (extendBack a b alo blo fuel m).bi + (extendBack a b alo blo fuel m).bk =
          m.bi + m.bk ∧
        (extendBack a b alo blo fuel m).bj + (extendBack a b alo blo fuel m).bk =
          m.bj + m.bk := by
  intro fuel
  induction fuel with
  | zero => intro m h1 h2; exact ⟨h1, h2, rfl, rfl⟩
  | succ n ih =>
    intro m h1 h2
    simp only [extendBack]
    split_ifs with hcond
    · obtain ⟨hc1, hc2, hc3⟩ := hcond
      have := ih ⟨m.bi - 1, m.bj - 1, m.bk + 1⟩ (by dsimp only; omega) (by dsimp only; omega)
      dsimp only at this
      refine ⟨this.1, this.2.1, ?_, ?_⟩ <;> omega
    · exact ⟨h1, h2, rfl, rfl⟩

lemma extendFwd_inv (a b : List String) (ahi bhi : Nat) :
    ∀ (fuel : Nat) (m : Best), m.bi + m.bk ≤ ahi → m.bj + m.bk ≤ bhi →
      (extendFwd a b ahi bhi fuel m).bi = m.bi ∧
        (extendFwd a b ahi bhi fuel m).bj = m.bj ∧
        (extendFwd a b ahi bhi fuel m).bi + (extendFwd a b ahi bhi fuel m).bk ≤ ahi ∧
        (extendFwd a b ahi bhi fuel m).bj + (extendFwd a b ahi bhi fuel m).bk ≤ bhi ∧
        m.bk ≤ (extendFwd a b ahi bhi fuel m).bk := by
  intro fuel
  induction fuel with
  | zero => intro m h1 h2; exact ⟨rfl, rfl, h1, h2, le_refl _⟩
  | succ n ih =>
    intro m h1 h2
    simp only [extendFwd]
    split_ifs with hcond
    · obtain ⟨hc1, hc2, hc3⟩ := hcond
      have := ih ⟨m.bi, m.bj, m.bk + 1⟩ (by dsimp only; omega) (by dsimp only; omega)
      dsimp only at this
      refine ⟨this.1, this.2.1, this.2.2.1, this.2.2.2.1, ?_⟩
      omega
    · exact ⟨rfl, rfl, h1, h2, le_refl _⟩

/-- Range validity of `find_longest_match`. -/
lemma findLongestMatch_range (a b : List String) (bb : String → List Nat)
    (alo ahi blo bhi : Nat) (ha : alo ≤ ahi) (hb : blo ≤ bhi) :
    alo ≤ (findLongestMatch a b bb alo ahi blo bhi).bi ∧
      blo ≤ (findLongestMatch a b bb alo ahi blo bhi).bj ∧
      (findLongestMatch a b bb alo ahi blo bhi).bi +
        (findLongestMatch a b bb alo ahi blo bhi).bk ≤ ahi ∧
      (findLongestMatch a b bb alo ahi blo bhi).bj +
        (findLongestMatch a b bb alo ahi blo bhi).bk ≤ bhi := by
  have hdef : findLongestMatch a b bb alo ahi blo bhi =
      extendFwd a b ahi bhi bhi
        (extendBack a b alo blo
          (flmRows a bb blo bhi (List.range' alo (ahi - alo)) (fun _ => 0) ⟨alo, blo, 0⟩).bi
          (flmRows a bb blo bhi (List.range' alo (ahi - alo)) (fun _ => 0) ⟨alo, blo, 0⟩)) :=
    rfl
  rw [hdef]
  have h0 := flmRows_inv a bb alo blo bhi (ahi - alo) alo (fun _ => 0) ⟨alo, blo, 0⟩
    (le_refl alo) (fun j hj => absurd rfl hj)
    ⟨le_refl alo, le_refl blo, by simpa using hb, fun h => absurd rfl h, fun _ => ⟨rfl, rfl⟩⟩
  set m0 := flmRows a bb blo bhi (List.range' alo (ahi - alo)) (fun _ => 0) ⟨alo, blo, 0⟩
  have harith : alo + (ahi - alo) = ahi := by omega
  rw [harith] at h0
  have hm0 : alo ≤ m0.bi ∧ blo ≤ m0.bj ∧ m0.bi + m0.bk ≤ ahi ∧ m0.bj + m0.bk ≤ bhi := by
    obtain ⟨h1, h2, h3, h4, h5⟩ := h0
    by_cases hk : m0.bk = 0
    · obtain ⟨e1, e2⟩ := h5 hk
      omega
    · exact ⟨h1, h2, h4 hk, h3⟩
  have hback := extendBack_inv a b alo blo m0.bi m0 hm0.1 hm0.2.1
  set m1 := extendBack a b alo blo m0.bi m0
  have hm1 : alo ≤ m1.bi ∧ blo ≤ m1.bj ∧ m1.bi + m1.bk ≤ ahi ∧ m1.bj + m1.bk ≤ bhi := by
    obtain ⟨h1, h2, h3, h4⟩ := hback
    omega
  have hfwd := extendFwd_inv a b ahi bhi bhi m1 hm1.2.2.1 hm1.2.2.2
  obtain ⟨h1, h2, h3, h4, h5⟩ := hfwd
  refine ⟨by omega, by omega, h3, h4⟩


/-- Blocks are nonempty, lie inside the window, and chain left to right
from the origin `(alo, blo)`. -/
def BlocksChained (alo blo ahi bhi : Nat) : List (Nat × Nat × Nat) → Prop
  | [] => True
  | (i, j, k) :: rest =>
    0 < k ∧ alo ≤ i ∧ i + k ≤ ahi ∧ blo ≤ j ∧ j + k ≤ bhi ∧
      BlocksChained (i + k) (j + k) ahi bhi rest

/-- Where a block list ends (the running pointer after all blocks). -/
def blocksEnd (alo blo : Nat) : List (Nat × Nat × Nat) → Nat × Nat
  | [] => (alo, blo)
  | (i, j, k) :: rest => blocksEnd (i + k) (j + k) rest

lemma BlocksChained.weakenUpper :
    ∀ {l : List (Nat × Nat × Nat)} {alo blo ahi bhi ahi' bhi' : Nat},
      BlocksChained alo blo ahi bhi l → ahi ≤ ahi' → bhi ≤ bhi' →
      BlocksChained alo blo ahi' bhi' l := by
  intro l
  induction l with
  | nil => intro alo blo ahi bhi ahi' bhi' h _ _; trivial
  | cons x rest ih =>
    obtain ⟨i, j, k⟩ := x
    intro alo blo ahi bhi ahi' bhi' h ha hb
    obtain ⟨h1, h2, h3, h4, h5, h6⟩ := h
    exact ⟨h1, h2, by omega, h4, by omega, ih h6 ha hb⟩

lemma BlocksChained.weakenOrigin :
    ∀ {l : List (Nat × Nat × Nat)} {alo blo ahi bhi alo' blo' : Nat},
      BlocksChained alo blo ahi bhi l → alo' ≤ alo → blo' ≤ blo →
      BlocksChained alo' blo' ahi bhi l := by
  intro l
  cases l with
  | nil => intro alo blo ahi bhi alo' blo' h _ _; trivial
  | cons x rest =>
    obtain ⟨i, j, k⟩ := x
    intro alo blo ahi bhi alo' blo' h ha hb
    obtain ⟨h1, h2, h3, h4, h5, h6⟩ := h
    exact ⟨h1, by omega, h3, by omega, h5, h6⟩

lemma blocksEnd_le :
    ∀ (l : List (Nat × Nat × Nat)) (alo blo ahi bhi : Nat), alo ≤ ahi → blo ≤ bhi →
      BlocksChained alo blo ahi bhi l →
      alo ≤ (blocksEnd alo blo l).1 ∧ (blocksEnd alo blo l).1 ≤ ahi ∧
        blo ≤ (blocksEnd alo blo l).2 ∧ (blocksEnd alo blo l).2 ≤ bhi := by
  intro l
  induction l with
  | nil => intro alo blo ahi bhi ha hb _; exact ⟨le_refl _, ha, le_refl _, hb⟩
  | cons x rest ih =>
    obtain ⟨i, j, k⟩ := x
    intro alo blo ahi bhi ha hb h
    obtain ⟨h1, h2, h3, h4, h5, h6⟩ := h
    have := ih (i + k) (j + k) ahi bhi h3 h5 h6
    simp only [blocksEnd]
    omega

lemma BlocksChained.append :
    ∀ (xs ys : List (Nat × Nat × Nat)) (alo blo ahi bhi : Nat),
      BlocksChained alo blo ahi bhi xs →
      BlocksChained (blocksEnd alo blo xs).1 (blocksEnd alo blo xs).2 ahi bhi ys →
      BlocksChained alo blo ahi bhi (xs ++ ys) := by
  intro xs
  induction xs with
  | nil => intro ys alo blo ahi bhi _ hy; simpa using hy
  | cons x rest ih =>
    obtain ⟨i, j, k⟩ := x
    intro ys alo blo ahi bhi hx hy
    obtain ⟨h1, h2, h3, h4, h5, h6⟩ := hx
    exact ⟨h1, h2, h3, h4, h5, ih ys (i + k) (j + k) ahi bhi h6 hy⟩

/-- The recursive matching-block collection is chained inside its window. -/
lemma matchingBlocksRec_chained (a b : List String) (bb : String → List Nat) :
    ∀ (fuel alo ahi blo bhi : Nat), alo ≤ ahi → blo ≤ bhi →
      BlocksChained alo blo ahi bhi (matchingBlocksRec a b bb fuel alo ahi blo bhi) := by
  intro fuel
  induction fuel with
  | zero => intro alo ahi blo bhi _ _; trivial
  | succ n ih =>
    intro alo ahi blo bhi ha hb
    simp only [matchingBlocksRec]
    by_cases hk : (findLongestMatch a b bb alo ahi blo bhi).bk = 0
    · rw [if_pos hk]; trivial
    · rw [if_neg hk]
      obtain ⟨hr1, hr2, hr3, hr4⟩ := findLongestMatch_range a b bb alo ahi blo bhi ha hb
      set m := findLongestMatch a b bb alo ahi blo bhi
      have hleft := ih alo m.bi blo m.bj hr1 hr2
      have hright := ih (m.bi + m.bk) ahi (m.bj + m.bk) bhi hr3 hr4
      rw [List.append_assoc, List.singleton_append]
      refine BlocksChained.append _ _ _ _ _ _ (hleft.weakenUpper (by omega) (by omega)) ?_
      have hend := blocksEnd_le (matchingBlocksRec a b bb n alo m.bi blo m.bj)
        alo blo m.bi m.bj hr1 hr2 hleft
      exact BlocksChained.weakenOrigin
        (⟨by omega, le_refl _, hr3, le_refl _, hr4, hright⟩ :
          BlocksChained m.bi m.bj ahi bhi ((m.bi, m.bj, m.bk) :: _))
        (by omega) (by omega)

/-- The adjacent-block merge keeps the chain property; the accumulator
`(i1, j1, k1)` is the pending block. -/
lemma mergeAdjAux_chained :
    ∀ (l : List (Nat × Nat × Nat)) (i1 j1 k1 alo blo ahi bhi : Nat),
      alo ≤ i1 → blo ≤ j1 → i1 + k1 ≤ ahi → j1 + k1 ≤ bhi →
      BlocksChained (i1 + k1) (j1 + k1) ahi bhi l →
      (k1 = 0 → i1 = alo ∧ j1 = blo) →
      BlocksChained alo blo ahi bhi (mergeAdjAux i1 j1 k1 l) := by
  intro l
  induction l with
  | nil =>
    intro i1 j1 k1 alo blo ahi bhi h1 h2 h3 h4 _ h0
    simp only [mergeAdjAux]
    by_cases hk : k1 ≠ 0
    · rw [if_pos hk]
      exact ⟨by omega, h1, h3, h2, h4, trivial⟩
    · rw [if_neg hk]; trivial
  | cons x rest ih =>
    obtain ⟨i2, j2, k2⟩ := x
    intro i1 j1 k1 alo blo ahi bhi h1 h2 h3 h4 hch h0
    obtain ⟨hc1, hc2, hc3, hc4, hc5, hc6⟩ := hch
    simp only [mergeAdjAux]
    by_cases hadj : i1 + k1 = i2 ∧ j1 + k1 = j2
    · rw [if_pos hadj]
      refine ih i1 j1 (k1 + k2) alo blo ahi bhi h1 h2 (by omega) (by omega) ?_ (by omega)
      have e1 : i1 + (k1 + k2) = i2 + k2 := by omega
      have e2 : j1 + (k1 + k2) = j2 + k2 := by omega
      rw [e1, e2]
      exact hc6
    · rw [if_neg hadj]
      have htail : BlocksChained (i1 + k1) (j1 + k1) ahi bhi (mergeAdjAux i2 j2 k2 rest) :=
        ih i2 j2 k2 (i1 + k1) (j1 + k1) ahi bhi hc2 hc4 hc3 hc5 hc6 (by omega)
      by_cases hk : k1 ≠ 0
      · rw [if_pos hk]
        exact ⟨by omega, h1, h3, h2, h4, htail⟩
      · rw [if_neg hk]
        have hk0 : k1 = 0 := by omega
        obtain ⟨e1, e2⟩ := h0 hk0
        simp only [List.nil_append]
        exact htail.weakenOrigin (by omega) (by omega)

/-- The merged matching blocks of two lists are chained in
`[0, len a) × [0, len b)` (before the sentinel). -/
lemma getMatchingBlocks_chained (a b : List String) :
    BlocksChained 0 0 a.length b.length
      (mergeAdjAux 0 0 0
        (matchingBlocksRec a b (b2jOf b) (a.length + b.length + 1) 0 a.length 0 b.length)) := by
  refine mergeAdjAux_chained _ 0 0 0 0 0 a.length b.length (le_refl _) (le_refl _)
    (by omega) (by omega) ?_ (fun _ => ⟨rfl, rfl⟩)
  simpa using matchingBlocksRec_chained a b (b2jOf b) (a.length + b.length + 1)
    0 a.length 0 b.length (by omega) (by omega)


/-- Precondition for the opcode walk: each block starts at or after the
running pointer, stays inside the sequences, and the walk ends exactly at
`(la, lb)` (the sentinel guarantees this). -/
def WalkOK (la lb : Nat) : Nat → Nat → List (Nat × Nat × Nat) → Prop
  | i, j, [] => i = la ∧ j = lb
  | i, j, (ai, bj, k) :: rest =>
    i ≤ ai ∧ j ≤ bj ∧ ai + k ≤ la ∧ bj + k ≤ lb ∧ WalkOK la lb (ai + k) (bj + k) rest

lemma BlocksChained.toWalkOK :
    ∀ (l : List (Nat × Nat × Nat)) (i j la lb : Nat),
      BlocksChained i j la lb l → i ≤ la → j ≤ lb →
      WalkOK la lb i j (l ++ [(la, lb, 0)]) := by
  intro l
  induction l with
  | nil =>
    intro i j la lb _ ha hb
    exact ⟨ha, hb, by omega, by omega, by omega, by omega⟩
  | cons x rest ih =>
    obtain ⟨ai, bj, k⟩ := x
    intro i j la lb h ha hb
    obtain ⟨h1, h2, h3, h4, h5, h6⟩ := h
    exact ⟨h2, h4, h3, h5, ih (ai + k) (bj + k) la lb h6 h3 h5⟩

/-- Every expected-side index is covered by an equal, delete or replace
opcode of the walk, and that opcode is in range. -/
lemma opcodeWalk_coverE (la lb : Nat) :
    ∀ (blocks : List (Nat × Nat × Nat)) (i j : Nat), WalkOK la lb i j blocks →
      ∀ idx, i ≤ idx → idx < la →
        ∃ op ∈ opcodeWalk i j blocks,
          op.i1 ≤ idx ∧ idx < op.i2 ∧ op.i2 ≤ la ∧ op.j1 ≤ op.j2 ∧ op.j2 ≤ lb ∧
          (op.tag = "equal" ∨ op.tag = "delete" ∨ op.tag = "replace") := by
  intro blocks
  induction blocks with
  | nil =>
    intro i j hw idx hge hlt
    obtain ⟨h1, h2⟩ := hw
    omega
  | cons blk rest ih =>
    obtain ⟨ai, bj, k⟩ := blk
    intro i j hw idx hge hlt
    obtain ⟨h1, h2, h3, h4, h5⟩ := hw
    simp only [opcodeWalk]
    by_cases hia : idx < ai
    · have hilt : i < ai := by omega
      by_cases hjb : j < bj
      · rw [if_pos ⟨hilt, hjb⟩]
        refine ⟨⟨"replace", i, ai, j, bj⟩, ?_, hge, hia,
          by dsimp only; omega, by dsimp only; omega, by dsimp only; omega,
          Or.inr (Or.inr rfl)⟩
        simp only [List.mem_append]
        exact Or.inl (Or.inl (List.mem_singleton_self _))
      · rw [if_neg (fun hc => hjb hc.2), if_pos hilt]
        refine ⟨⟨"delete", i, ai, j, bj⟩, ?_, hge, hia,
          by dsimp only; omega, by dsimp only; omega, by dsimp only; omega,
          Or.inr (Or.inl rfl)⟩
        simp only [List.mem_append]
        exact Or.inl (Or.inl (List.mem_singleton_self _))
    · by_cases hik : idx < ai + k
      · have hk0 : k ≠ 0 := by omega
        refine ⟨⟨"equal", ai, ai + k, bj, bj + k⟩, ?_,
          by dsimp only; omega, hik, h3, by dsimp only; omega, h4, Or.inl rfl⟩
        simp only [List.mem_append]
        refine Or.inl (Or.inr ?_)
        rw [if_pos hk0]
        exact List.mem_singleton_self _
      · obtain ⟨op, hmem, hrest⟩ := ih (ai + k) (bj + k) h5 idx (by omega) hlt
        refine ⟨op, ?_, hrest⟩
        simp only [List.mem_append]
        exact Or.inr hmem

/-- Every actual-side index is covered by an equal, insert or replace
opcode of the walk, and that opcode is in range. -/
lemma opcodeWalk_coverA (la lb : Nat) :
    ∀ (blocks : List (Nat × Nat × Nat)) (i j : Nat), WalkOK la lb i j blocks →
      ∀ jdx, j ≤ jdx → jdx < lb →
        ∃ op ∈ opcodeWalk i j blocks,
          op.j1 ≤ jdx ∧ jdx < op.j2 ∧ op.j2 ≤ lb ∧ op.i1 ≤ op.i2 ∧ op.i2 ≤ la ∧
          (op.tag = "equal" ∨ op.tag = "insert" ∨ op.tag = "replace") := by
  intro blocks
  induction blocks with
  | nil =>
    intro i j hw jdx hge hlt
    obtain ⟨h1, h2⟩ := hw
    omega
  | cons blk rest ih =>
    obtain ⟨ai, bj, k⟩ := blk
    intro i j hw jdx hge hlt
    obtain ⟨h1, h2, h3, h4, h5⟩ := hw
    simp only [opcodeWalk]
    by_cases hjb : jdx < bj
    · have hjlt : j < bj := by omega
      by_cases hia : i < ai
      · rw [if_pos ⟨hia, hjlt⟩]
        refine ⟨⟨"replace", i, ai, j, bj⟩, ?_, hge, hjb,
          by dsimp only; omega, by dsimp only; omega, by dsimp only; omega,
          Or.inr (Or.inr rfl)⟩
        simp only [List.mem_append]
        exact Or.inl (Or.inl (List.mem_singleton_self _))
      · rw [if_neg (fun hc => hia hc.1), if_neg hia, if_pos hjlt]
        refine ⟨⟨"insert", i, ai, j, bj⟩, ?_, hge, hjb,
          by dsimp only; omega, by dsimp only; omega, by dsimp only; omega,
          Or.inr (Or.inl rfl)⟩
        simp only [List.mem_append]
        exact Or.inl (Or.inl (List.mem_singleton_self _))
    · by_cases hjk : jdx < bj + k
      · have hk0 : k ≠ 0 := by omega
        refine ⟨⟨"equal", ai, ai + k, bj, bj + k⟩, ?_,
          by dsimp only; omega, hjk, h4, by dsimp only; omega, h3, Or.inl rfl⟩
        simp only [List.mem_append]
        refine Or.inl (Or.inr ?_)
        rw [if_pos hk0]
        exact List.mem_singleton_self _
      · obtain ⟨op, hmem, hrest⟩ := ih (ai + k) (bj + k) h5 jdx (by omega) hlt
        refine ⟨op, ?_, hrest⟩
        simp only [List.mem_append]
        exact Or.inr hmem

lemma sumSizes_cons (i j k : Nat) (rest : List (Nat × Nat × Nat)) :
    sumSizes ((i, j, k) :: rest) = k + sumSizes rest := by
  simp [sumSizes]

/-- The matched total of a chained block list fits inside the window. -/
lemma BlocksChained.sum_le :
    ∀ (l : List (Nat × Nat × Nat)) (alo blo ahi bhi : Nat),
      BlocksChained alo blo ahi bhi l → alo ≤ ahi → blo ≤ bhi →
      sumSizes l + alo ≤ ahi ∧ sumSizes l + blo ≤ bhi := by
  intro l
  induction l with
  | nil =>
    intro alo blo ahi bhi _ ha hb
    simp only [sumSizes, List.map_nil, List.sum_nil]
    omega
  | cons x rest ih =>
    obtain ⟨i, j, k⟩ := x
    intro alo blo ahi bhi h ha hb
    obtain ⟨h1, h2, h3, h4, h5, h6⟩ := h
    have := ih (i + k) (j + k) ahi bhi h6 h3 h5
    rw [sumSizes_cons]
    omega

/-- The walk precondition holds for `get_matching_blocks()`. -/
lemma getMatchingBlocks_walkOK (a b : List String) :
    WalkOK a.length b.length 0 0 (getMatchingBlocks a b) :=
  (getMatchingBlocks_chained a b).toWalkOK _ 0 0 a.length b.length
    (Nat.zero_le _) (Nat.zero_le _)

end SeqMatch

namespace SeqMatch

/-- Every opcode of a walk with a valid block list is in range. -/
lemma opcodeWalk_ranges (la lb : Nat) :
    ∀ (blocks : List (Nat × Nat × Nat)) (i j : Nat), WalkOK la lb i j blocks →
      ∀ op ∈ opcodeWalk i j blocks,
        op.i1 ≤ op.i2 ∧ op.i2 ≤ la ∧ op.j1 ≤ op.j2 ∧ op.j2 ≤ lb := by
  intro blocks
  induction blocks with
  | nil => intro i j _ op hop; simp [opcodeWalk] at hop
  | cons blk rest ih =>
    obtain ⟨ai, bj, k⟩ := blk
    intro i j hw op hop
    obtain ⟨h1, h2, h3, h4, h5⟩ := hw
    simp only [opcodeWalk, List.mem_append] at hop
    rcases hop with (hg | he) | hr
    · split_ifs at hg <;>
        first
          | exact absurd hg (List.not_mem_nil _)
          | (simp only [List.mem_singleton] at hg; subst hg;
             exact ⟨by dsimp only; omega, by dsimp only; omega,
               by dsimp only; omega, by dsimp only; omega⟩)
    · split_ifs at he <;>
        first
          | exact absurd he (List.not_mem_nil _)
          | (simp only [List.mem_singleton] at he; subst he;
             exact ⟨by dsimp only; omega, by dsimp only; omega,
               by dsimp only; omega, by dsimp only; omega⟩)
    · exact ih (ai + k) (bj + k) h5 op hr

end SeqMatch

/-- Claim-level coverage of an expected-side index: it lies inside an
`equal` opcode, or a substitution/missing error is reported at it. -/
def coveredE (e a : List String) (idx : Nat) : Prop :=
  (∃ op ∈ SeqMatch.getOpcodes e a, op.tag = "equal" ∧ op.i1 ≤ idx ∧ idx < op.i2) ∨
  (∃ err ∈ (compareVowelSequences e a).2, err.position = idx ∧
    (err.error_type = "substitution" ∨ err.error_type = "missing"))

/-- The unzipped expected tail of a two-sided gap: indices of a `replace`
opcode beyond the zipped shorter length, for which the code emits no op. -/
def exceptTailE (e a : List String) (idx : Nat) : Prop :=
  ∃ op ∈ SeqMatch.getOpcodes e a, op.tag = "replace" ∧
    op.i1 + (op.j2 - op.j1) ≤ idx ∧ idx < op.i2

/-- Claim-level coverage of an actual-side index. -/
def coveredA (e a : List String) (jdx : Nat) : Prop :=
  ∃ op ∈ SeqMatch.getOpcodes e a,
    (op.tag = "equal" ∧ op.j1 ≤ jdx ∧ jdx < op.j2) ∨
    (op.tag = "insert" ∧ op.j1 ≤ jdx ∧ jdx < op.j2) ∨
    (op.tag = "replace" ∧ op.j1 ≤ jdx ∧
      jdx < op.j1 + min (op.i2 - op.i1) (op.j2 - op.j1))

/-- The unzipped actual tail of a two-sided gap. -/
def exceptTailA (e a : List String) (jdx : Nat) : Prop :=
  ∃ op ∈ SeqMatch.getOpcodes e a, op.tag = "replace" ∧
    op.j1 + (op.i2 - op.i1) ≤ jdx ∧ jdx < op.j2

instance (e a : List String) (idx : Nat) : Decidable (coveredE e a idx) := by
  unfold coveredE; exact inferInstance

instance (e a : List String) (idx : Nat) : Decidable (exceptTailE e a idx) := by
  unfold exceptTailE; exact inferInstance

lemma mem_foldl_append {α β : Type} (f : β → List α) :
    ∀ (l : List β) (init : List α) (x : α),
      (x ∈ init ∨ ∃ b ∈ l, x ∈ f b) →
      x ∈ l.foldl (fun acc op => acc ++ f op) init := by
  intro l
  induction l with
  | nil =>
    intro init x h
    rcases h with h | ⟨b, hb, _⟩
    · simpa using h
    · simp at hb
  | cons y l ih =>
    intro init x h
    simp only [List.foldl_cons]
    refine ih (init ++ f y) x ?_
    rcases h with h | ⟨b, hb, hx⟩
    · exact Or.inl (List.mem_append_left _ h)
    · rcases List.mem_cons.mp hb with rfl | hb'
      · exact Or.inl (List.mem_append_right _ hx)
      · exact Or.inr ⟨b, hb', hx⟩

lemma compare_errors_mem (e a : List String) (he : e ≠ []) (op : SeqMatch.Opcode)
    (hop : op ∈ SeqMatch.getOpcodes e a) (err : VErr) (herr : err ∈ errsOfOp e a op) :
    err ∈ (compareVowelSequences e a).2 := by
  simp only [compareVowelSequences, if_neg he]
  exact mem_foldl_append _ _ [] err (Or.inr ⟨op, hop, herr⟩)

lemma sliceOf_length (l : List String) (i1 i2 : Nat) (h2 : i2 ≤ l.length) :
    (sliceOf l i1 i2).length = i2 - i1 := by
  simp only [sliceOf, List.length_take, List.length_drop]
  omega

lemma sliceOf_getElem (l : List String) (i1 i2 k : Nat) (hk : k < i2 - i1)
    (h2 : i2 ≤ l.length) (hk' : k < (sliceOf l i1 i2).length) :
    (sliceOf l i1 i2)[k] = l.getD (i1 + k) "" := by
  have hbound : i1 + k < l.length := by omega
  simp only [sliceOf]
  rw [List.getElem_take, List.getElem_drop, List.getD_eq_getElem l "" hbound]

lemma enum_mem_of_getElem {α : Type} (l : List α) (k : Nat) (hk : k < l.length) :
    (k, l[k]) ∈ l.enum := by
  have hk' : k < l.enum.length := by
    rw [List.enum_length]
    exact hk
  have := List.getElem_enum l k hk'
  rw [← this]
  exact List.getElem_mem hk'

/-- A `delete` opcode in range contributes a `missing` error for each of
its expected indices. -/
lemma errsOfOp_delete_mem (e a : List String) (op : SeqMatch.Opcode)
    (htag : op.tag = "delete") (idx : Nat) (h1 : op.i1 ≤ idx) (h2 : idx < op.i2)
    (h3 : op.i2 ≤ e.length) :
    (⟨idx, some (e.getD idx ""), none, "missing", some (ipaName (e.getD idx "")),
        none⟩ : VErr) ∈ errsOfOp e a op := by
  have hne : ¬ op.tag = "replace" := by rw [htag]; decide
  simp only [errsOfOp, if_neg hne, if_pos htag]
  have hlen : (sliceOf e op.i1 op.i2).length = op.i2 - op.i1 := sliceOf_length _ _ _ h3
  have hk : idx - op.i1 < (sliceOf e op.i1 op.i2).length := by omega
  have hval : (sliceOf e op.i1 op.i2)[idx - op.i1] = e.getD (op.i1 + (idx - op.i1)) "" :=
    sliceOf_getElem e op.i1 op.i2 _ (by omega) h3 hk
  have hmem := enum_mem_of_getElem (sliceOf e op.i1 op.i2) (idx - op.i1) hk
  rw [hval] at hmem
  have harith : op.i1 + (idx - op.i1) = idx := by omega
  rw [harith] at hmem
  have := List.mem_map_of_mem
    (fun ke => (⟨op.i1 + ke.1, some ke.2, none, "missing", some (ipaName ke.2), none⟩ : VErr))
    hmem
  simpa [harith] using this

/-- An `insert` opcode in range contributes an `insertion` error for each
of its actual indices. -/
lemma errsOfOp_insert_mem (e a : List String) (op : SeqMatch.Opcode)
    (htag : op.tag = "insert") (jdx : Nat) (h1 : op.j1 ≤ jdx) (h2 : jdx < op.j2)
    (h3 : op.j2 ≤ a.length) :
    (⟨op.i1, none, some (a.getD jdx ""), "insertion", none,
        some (ipaName (a.getD jdx ""))⟩ : VErr) ∈ errsOfOp e a op := by
  have hne1 : ¬ op.tag = "replace" := by rw [htag]; decide
  have hne2 : ¬ op.tag = "delete" := by rw [htag]; decide
  simp only [errsOfOp, if_neg hne1, if_neg hne2, if_pos htag]
  have hlen : (sliceOf a op.j1 op.j2).length = op.j2 - op.j1 := sliceOf_length _ _ _ h3
  have hk : jdx - op.j1 < (sliceOf a op.j1 op.j2).length := by omega
  have hval : (sliceOf a op.j1 op.j2)[jdx - op.j1] = a.getD (op.j1 + (jdx - op.j1)) "" :=
    sliceOf_getElem a op.j1 op.j2 _ (by omega) h3 hk
  have hmem := enum_mem_of_getElem (sliceOf a op.j1 op.j2) (jdx - op.j1) hk
  rw [hval] at hmem
  have harith : op.j1 + (jdx - op.j1) = jdx := by omega
  rw [harith] at hmem
  exact List.mem_map_of_mem
    (fun ke => (⟨op.i1, none, some ke.2, "insertion", none, some (ipaName ke.2)⟩ : VErr)) hmem

/-- A `replace` opcode in range contributes a `substitution` error for
each zipped index pair. -/
lemma errsOfOp_replace_mem (e a : List String) (op : SeqMatch.Opcode)
    (htag : op.tag = "replace") (k : Nat)
    (hk : k < min (op.i2 - op.i1) (op.j2 - op.j1))
    (he : op.i2 ≤ e.length) (ha : op.j2 ≤ a.length) :
    (⟨op.i1 + k, some (e.getD (op.i1 + k) ""), some (a.getD (op.j1 + k) ""),
        "substitution", some (ipaName (e.getD (op.i1 + k) "")),
        some (ipaName (a.getD (op.j1 + k) ""))⟩ : VErr) ∈ errsOfOp e a op := by
  simp only [errsOfOp, if_pos htag]
  have hle : (sliceOf e op.i1 op.i2).length = op.i2 - op.i1 := sliceOf_length _ _ _ he
  have hla : (sliceOf a op.j1 op.j2).length = op.j2 - op.j1 := sliceOf_length _ _ _ ha
  have hzlen : ((sliceOf e op.i1 op.i2).zip (sliceOf a op.j1 op.j2)).length =
      min (op.i2 - op.i1) (op.j2 - op.j1) := by
    rw [List.length_zip, hle, hla]
  have hk' : k < ((sliceOf e op.i1 op.i2).zip (sliceOf a op.j1 op.j2)).length := by omega
  have hke : k < (sliceOf e op.i1 op.i2).length := by omega
  have hka : k < (sliceOf a op.j1 op.j2).length := by omega
  have hzval : ((sliceOf e op.i1 op.i2).zip (sliceOf a op.j1 op.j2))[k] =
      ((sliceOf e op.i1 op.i2)[k], (sliceOf a op.j1 op.j2)[k]) :=
    List.getElem_zip
  have hve : (sliceOf e op.i1 op.i2)[k] = e.getD (op.i1 + k) "" :=
    sliceOf_getElem e op.i1 op.i2 k (by omega) he hke
  have hva : (sliceOf a op.j1 op.j2)[k] = a.getD (op.j1 + k) "" :=
    sliceOf_getElem a op.j1 op.j2 k (by omega) ha hka
  have hmem := enum_mem_of_getElem ((sliceOf e op.i1 op.i2).zip (sliceOf a op.j1 op.j2)) k hk'
  rw [hzval, hve, hva] at hmem
  exact List.mem_map_of_mem
    (fun ke => (⟨op.i1 + ke.1, some ke.2.1, some ke.2.2, "substitution",
      some (ipaName ke.2.1), some (ipaName ke.2.2)⟩ : VErr)) hmem

/-- C2 counterexample: aligning expected `["a","b"]` against actual
`["c"]` produces the single opcode `replace(0,2,0,1)`; the zip emits one
substitution at position 0, and expected index 1 gets no op at all. -/
theorem aligner_coverage_cex :
    (compareVowelSequences ["a", "b"] ["c"]).2 =
      [⟨0, some "a", some "c", "substitution", some "a", some "c"⟩] ∧
    (1 < (["a", "b"] : List String).length) ∧ ¬ coveredE ["a", "b"] ["c"] 1 :=
  ⟨by decide, by decide, by decide⟩

/-- C2 corrected: for nonempty expected, every expected index is matched,
reported as substitution/missing, or lies in the unzipped expected tail of
a `replace` gap (no op); every actual index is matched, insert-covered,
replace-zip-covered, or lies in the unzipped actual tail; `replace` gaps
emit substitutions exactly for the zipped shorter length, and `insert`
gaps emit one insertion record per actual index. -/
theorem aligner_coverage_amended :
    ∀ (e a : List String), e ≠ [] →
      (∀ idx, idx < e.length → coveredE e a idx ∨ exceptTailE e a idx) ∧
      (∀ jdx, jdx < a.length → coveredA e a jdx ∨ exceptTailA e a jdx) ∧
      (∀ op ∈ SeqMatch.getOpcodes e a, op.tag = "replace" →
        ∀ k, k < min (op.i2 - op.i1) (op.j2 - op.j1) →
          ∃ err ∈ (compareVowelSequences e a).2, err.position = op.i1 + k ∧
            err.error_type = "substitution" ∧ err.expected = some (e.getD (op.i1 + k) "") ∧
            err.actual = some (a.getD (op.j1 + k) "")) ∧
      (∀ op ∈ SeqMatch.getOpcodes e a, op.tag = "insert" →
        ∀ jdx, op.j1 ≤ jdx → jdx < op.j2 →
          ∃ err ∈ (compareVowelSequences e a).2, err.position = op.i1 ∧
            err.error_type = "insertion" ∧ err.actual = some (a.getD jdx "")) := by
  intro e a he
  have hwalk := SeqMatch.getMatchingBlocks_walkOK e a
  have hranges := SeqMatch.opcodeWalk_ranges e.length a.length _ 0 0 hwalk
  refine ⟨?_, ?_, ?_, ?_⟩
  · intro idx hidx
    obtain ⟨op, hop, hi1, hi2, hla, hj12, hlb, htags⟩ :=
      SeqMatch.opcodeWalk_coverE e.length a.length _ 0 0 hwalk idx (Nat.zero_le _) hidx
    rcases htags with ht | ht | ht
    · exact Or.inl (Or.inl ⟨op, hop, ht, hi1, hi2⟩)
    · exact Or.inl (Or.inr ⟨_, compare_errors_mem e a he op hop _
        (errsOfOp_delete_mem e a op ht idx hi1 hi2 hla), rfl, Or.inr rfl⟩)
    · by_cases hcase : idx < op.i1 + (op.j2 - op.j1)
      · have hk : idx - op.i1 < min (op.i2 - op.i1) (op.j2 - op.j1) := by omega
        have hmem := errsOfOp_replace_mem e a op ht (idx - op.i1) hk hla hlb
        have harith : op.i1 + (idx - op.i1) = idx := by omega
        rw [harith] at hmem
        exact Or.inl (Or.inr ⟨_, compare_errors_mem e a he op hop _ hmem, rfl, Or.inl rfl⟩)
      · exact Or.inr ⟨op, hop, ht, by omega, hi2⟩
  · intro jdx hjdx
    obtain ⟨op, hop, hj1, hj2, hlb, hi12, hla, htags⟩ :=
      SeqMatch.opcodeWalk_coverA e.length a.length _ 0 0 hwalk jdx (Nat.zero_le _) hjdx
    rcases htags with ht | ht | ht
    · exact Or.inl ⟨op, hop, Or.inl ⟨ht, hj1, hj2⟩⟩
    · exact Or.inl ⟨op, hop, Or.inr (Or.inl ⟨ht, hj1, hj2⟩)⟩
    · by_cases hcase : jdx < op.j1 + min (op.i2 - op.i1) (op.j2 - op.j1)
      · exact Or.inl ⟨op, hop, Or.inr (Or.inr ⟨ht, hj1, hcase⟩)⟩
      · exact Or.inr ⟨op, hop, ht, by omega, hj2⟩
  · intro op hop ht k hk
    obtain ⟨hr1, hr2, hr3, hr4⟩ := hranges op hop
    exact ⟨_, compare_errors_mem e a he op hop _
      (errsOfOp_replace_mem e a op ht k hk hr2 hr4), rfl, rfl, rfl, rfl⟩
  · intro op hop ht jdx hj1 hj2
    obtain ⟨hr1, hr2, hr3, hr4⟩ := hranges op hop
    exact ⟨_, compare_errors_mem e a he op hop _
      (errsOfOp_insert_mem e a op ht jdx hj1 hj2 hr4), rfl, rfl, rfl⟩

theorem aligner_coverage_amended_witness :
    coveredE ["x"] ["x"] 0 ∨ exceptTailE ["x"] ["x"] 0 :=
  (aligner_coverage_amended ["x"] ["x"] (by decide)).1 0 (by decide)

/-- Number of errors blaming the expected symbol `v`. -/
def countE (errors : List VErr) (v : String) : Nat :=
  (errors.filter (fun e => decide (e.expected = some v))).length

/-- The focus-area line as the spec words it: metadata looked up with the
raw-symbol / empty-example fallbacks, plus the tallied count. -/
def specFocusLine (v : String) (n : Nat) : String :=
  "/" ++ v ++ "/ (" ++ ipaName v ++ ") - as in " ++ apos ++ ipaExampleWord v ++ apos
    ++ " - " ++ toString n ++ " error(s)"

/-- Difficulty rank of a symbol via the metadata (with 'medium' fallback). -/
def symRank (v : String) : Nat := difficultyRank (ipaDifficulty v)

instance : IsTotal (String × FocusInfo) focusLE :=
  ⟨fun x y => by unfold focusLE; omega⟩

instance : IsTrans (String × FocusInfo) focusLE :=
  ⟨fun x y z hxy hyz => by unfold focusLE at *; omega⟩

lemma lookup_isSome_iff {β : Type} (T : List (String × β)) (v : String) :
    (T.lookup v).isSome ↔ v ∈ T.map Prod.fst := by
  induction T with
  | nil => simp [List.lookup]
  | cons p T ih =>
    obtain ⟨k, b⟩ := p
    by_cases hk : k = v
    · subst hk
      simp [List.lookup]
    · have hbeq : (v == k) = false := by
        simpa using fun he => hk he.symm
      simp only [List.lookup, hbeq, List.map_cons, List.mem_cons]
      rw [ih]
      constructor
      · exact fun h => Or.inr h
      · rintro (h | h)
        · exact absurd h.symm hk
        · exact h

/-- Invariant of the tally entries. -/
def TallyInv (T : List (String × FocusInfo)) (c : String → Nat) : Prop :=
  (∀ p ∈ T, p.2.count = c p.1 ∧ p.2.name = ipaName p.1 ∧
    p.2.exWord = ipaExampleWord p.1 ∧ p.2.difficulty = ipaDifficulty p.1) ∧
  (T.map Prod.fst).Nodup ∧ (∀ v, v ∈ T.map Prod.fst ↔ 0 < c v)

lemma bumpTally_keys (T : List (String × FocusInfo)) (v0 : String)
    (hmem : (T.lookup v0).isSome) :
    (bumpTally T v0).map Prod.fst = T.map Prod.fst := by
  simp only [bumpTally, if_pos hmem, List.map_map]
  refine List.map_congr_left (fun p hp => ?_)
  by_cases hqv : p.1 = v0 <;> simp [hqv]

lemma bumpTally_inv (T : List (String × FocusInfo)) (c : String → Nat) (v0 : String)
    (h : TallyInv T c) :
    TallyInv (bumpTally T v0) (fun v => c v + (if v = v0 then 1 else 0)) := by
  obtain ⟨h1, h2, h3⟩ := h
  by_cases hmem : (T.lookup v0).isSome
  · have hv0 : v0 ∈ T.map Prod.fst := (lookup_isSome_iff T v0).mp hmem
    refine ⟨?_, ?_, ?_⟩
    · intro p hp
      simp only [bumpTally, if_pos hmem, List.mem_map] at hp
      obtain ⟨q, hq, hpq⟩ := hp
      obtain ⟨hc, hn, he, hd⟩ := h1 q hq
      by_cases hqv : q.1 = v0
      · rw [if_pos hqv] at hpq
        subst hpq
        refine ⟨?_, hn, he, hd⟩
        dsimp only
        rw [if_pos hqv]
        omega
      · rw [if_neg hqv] at hpq
        subst hpq
        refine ⟨?_, hn, he, hd⟩
        dsimp only
        rw [if_neg hqv]
        omega
    · rw [bumpTally_keys T v0 hmem]
      exact h2
    · intro v
      rw [bumpTally_keys T v0 hmem]
      by_cases hv : v = v0
      · subst hv
        have hc := (h3 v).mp hv0
        simp only [if_pos rfl]
        exact ⟨fun _ => by omega, fun _ => hv0⟩
      · simp only [if_neg hv, Nat.add_zero]
        exact h3 v
  · have hv0 : v0 ∉ T.map Prod.fst := fun hv => hmem ((lookup_isSome_iff T v0).mpr hv)
    have hc0 : c v0 = 0 := by
      by_contra hne
      exact hv0 ((h3 v0).mpr (by omega))
    have hkeys : (bumpTally T v0).map Prod.fst = T.map Prod.fst ++ [v0] := by
      simp [bumpTally, if_neg hmem]
    refine ⟨?_, ?_, ?_⟩
    · intro p hp
      simp only [bumpTally, if_neg hmem, List.mem_append, List.mem_singleton] at hp
      rcases hp with hp | hp
      · obtain ⟨hc, hn, he, hd⟩ := h1 p hp
        have hpv : p.1 ≠ v0 := fun hpe => hv0 (hpe ▸ List.mem_map_of_mem Prod.fst hp)
        refine ⟨?_, hn, he, hd⟩
        dsimp only
        rw [if_neg hpv]
        omega
      · subst hp
        refine ⟨?_, rfl, rfl, rfl⟩
        dsimp only
        rw [if_pos rfl]
        omega
    · rw [hkeys]
      rw [List.nodup_append]
      exact ⟨h2, List.nodup_singleton v0, by simpa using hv0⟩
    · intro v
      rw [hkeys]
      simp only [List.mem_append, List.mem_singleton]
      by_cases hv : v = v0
      · subst hv
        have hone : c v + (if v = v then 1 else 0) = c v + 1 := by
          rw [if_pos rfl]
        rw [hone]
        exact ⟨fun _ => by omega, fun _ => Or.inr rfl⟩
      · simp only [if_neg hv, Nat.add_zero]
        rw [← h3 v]
        refine ⟨fun h => ?_, fun h => Or.inl h⟩
        rcases h with h | h
        · exact h
        · exact absurd h hv

lemma countE_cons_none (e : VErr) (rest : List VErr) (he : e.expected = none) (v : String) :
    countE (e :: rest) v = countE rest v := by
  simp [countE, List.filter_cons, he]

lemma countE_cons_some (e : VErr) (rest : List VErr) (v0 : String)
    (he : e.expected = some v0) (v : String) :
    countE (e :: rest) v = (if v = v0 then 1 else 0) + countE rest v := by
  by_cases hv : v = v0
  · subst hv
    simp [countE, List.filter_cons, he]
    omega
  · have : ¬ (e.expected = some v) := by
      rw [he]
      simpa using fun hc => hv hc.symm
    simp [countE, List.filter_cons, this, hv]

lemma tally_fold_inv :
    ∀ (rest : List VErr) (T : List (String × FocusInfo)) (c : String → Nat),
      (∀ e ∈ rest, e.expected ≠ some "") →
      TallyInv T c →
      TallyInv (rest.foldl (fun t e => match e.expected with
          | some v => if v ≠ "" then bumpTally t v else t
          | none => t) T)
        (fun v => c v + countE rest v) := by
  intro rest
  induction rest with
  | nil =>
    intro T c _ h
    have : (fun v => c v + countE [] v) = c := by
      funext v
      simp [countE]
    rw [List.foldl_nil, this]
    exact h
  | cons e rest ih =>
    intro T c hne h
    rw [List.foldl_cons]
    cases hexp : e.expected with
    | none =>
      simp only [hexp]
      have hres := ih T c (fun x hx => hne x (List.mem_cons_of_mem _ hx)) h
      have hfun : (fun v => c v + countE (e :: rest) v) = (fun v => c v + countE rest v) := by
        funext v
        rw [countE_cons_none e rest hexp]
      rw [hfun]
      exact hres
    | some v0 =>
      have hv0 : v0 ≠ "" := by
        intro hv
        exact hne e (List.mem_cons_self e rest) (by rw [hexp, hv])
      simp only [hexp, if_pos hv0]
      have hres := ih (bumpTally T v0) (fun v => c v + (if v = v0 then 1 else 0))
        (fun x hx => hne x (List.mem_cons_of_mem _ hx)) (bumpTally_inv T c v0 h)
      have hfun : (fun v => c v + (if v = v0 then 1 else 0) + countE rest v) =
          (fun v => c v + countE (e :: rest) v) := by
        funext v
        rw [countE_cons_some e rest v0 hexp]
        omega
      rw [← hfun]
      exact hres

/-- The tally of an error list (with no empty expected symbols) satisfies
the invariant with the per-symbol error count. -/
lemma tallyErrors_inv (errors : List VErr) (hne : ∀ e ∈ errors, e.expected ≠ some "") :
    TallyInv (tallyErrors errors) (countE errors) := by
  have h0 : TallyInv [] (fun _ => 0) :=
    ⟨fun p hp => absurd hp (List.not_mem_nil p), List.nodup_nil, fun v => by simp⟩
  have := tally_fold_inv errors [] (fun _ => 0) hne h0
  have hfun : (fun v => (fun _ => 0 : String → Nat) v + countE errors v) = countE errors := by
    funext v
    simp
  rw [hfun] at this
  exact this

/-- C8: For every list of vowel alignment errors whose present expected
symbols are non-empty, the focus-area ranker tallies error counts per
distinct expected symbol (errors with no expected symbol are ignored),
sorts by descending count with ties broken by the difficulty rank
(high = 0, medium = 1, low = 2), and emits at most the top 3 entries
formatted as `/symbol/ (name) - as in 'example' - N error(s)`, with the
raw-symbol and empty-example fallbacks baked into the metadata lookup. -/
theorem identify_focus_areas_spec (errors : List VErr)
    (hne : ∀ e ∈ errors, e.expected ≠ some "") :
    ∃ syms : List String,
      identifyFocusAreas errors
        = (syms.take 3).map (fun v => specFocusLine v (countE errors v)) ∧
      syms.Nodup ∧
      (∀ v, v ∈ syms ↔ 0 < countE errors v) ∧
      syms.Pairwise (fun u v => countE errors v < countE errors u ∨
        (countE errors u = countE errors v ∧ symRank u ≤ symRank v)) := by
  obtain ⟨hent, hnd, hiff⟩ := tallyErrors_inv errors hne
  set T := tallyErrors errors with hT
  set S := List.insertionSort focusLE T with hS
  have hperm : List.Perm S T := List.perm_insertionSort focusLE T
  have hentS : ∀ p ∈ S, p.2.count = countE errors p.1 ∧ p.2.name = ipaName p.1 ∧
      p.2.exWord = ipaExampleWord p.1 ∧ p.2.difficulty = ipaDifficulty p.1 :=
    fun p hp => hent p (hperm.mem_iff.mp hp)
  refine ⟨S.map Prod.fst, ?_, ?_, ?_, ?_⟩
  · rw [identifyFocusAreas, ← hT, ← hS, ← List.map_take, List.map_map]
    refine List.map_congr_left (fun p hp => ?_)
    obtain ⟨hc, hn, hx, _⟩ := hentS p (List.mem_of_mem_take hp)
    simp only [Function.comp]
    rw [focusLine, specFocusLine, hc, hn, hx]
  · exact ((hperm.map Prod.fst).nodup_iff).mpr hnd
  · intro v
    rw [List.mem_map]
    constructor
    · rintro ⟨p, hp, rfl⟩
      exact (hiff p.1).mp (List.mem_map_of_mem Prod.fst (hperm.mem_iff.mp hp))
    · intro hv
      obtain ⟨p, hp, hpv⟩ := List.mem_map.mp ((hiff v).mpr hv)
      exact ⟨p, hperm.mem_iff.mpr hp, hpv⟩
  · have hsorted : S.Pairwise focusLE := List.sorted_insertionSort focusLE T
    rw [List.pairwise_map]
    refine hsorted.imp_of_mem (fun {p q} hp hq hpq => ?_)
    obtain ⟨hcp, _, _, hdp⟩ := hentS p hp
    obtain ⟨hcq, _, _, hdq⟩ := hentS q hq
    unfold focusLE at hpq
    rw [hcp, hcq, hdp, hdq] at hpq
    exact hpq

/-- Witness for C8 at a concrete error list. -/
theorem identify_focus_areas_spec_witness :
    (∀ e ∈ [(⟨0, some "ɪ", some "i", "substitution", none, none⟩ : VErr),
        ⟨1, some "ɪ", none, "omission", none, none⟩,
        ⟨2, none, some "æ", "insertion", none, none⟩],
      e.expected ≠ some "") ∧
    ∃ syms : List String,
      identifyFocusAreas [(⟨0, some "ɪ", some "i", "substitution", none, none⟩ : VErr),
          ⟨1, some "ɪ", none, "omission", none, none⟩,
          ⟨2, none, some "æ", "insertion", none, none⟩]
        = (syms.take 3).map (fun v => specFocusLine v
            (countE [(⟨0, some "ɪ", some "i", "substitution", none, none⟩ : VErr),
              ⟨1, some "ɪ", none, "omission", none, none⟩,
              ⟨2, none, some "æ", "insertion", none, none⟩] v)) ∧
      syms.Nodup ∧
      (∀ v, v ∈ syms ↔ 0 <
        countE [(⟨0, some "ɪ", some "i", "substitution", none, none⟩ : VErr),
          ⟨1, some "ɪ", none, "omission", none, none⟩,
          ⟨2, none, some "æ", "insertion", none, none⟩] v) ∧
      syms.Pairwise (fun u v =>
        countE [(⟨0, some "ɪ", some "i", "substitution", none, none⟩ : VErr),
            ⟨1, some "ɪ", none, "omission", none, none⟩,
            ⟨2, none, some "æ", "insertion", none, none⟩] v <
          countE [(⟨0, some "ɪ", some "i", "substitution", none, none⟩ : VErr),
            ⟨1, some "ɪ", none, "omission", none, none⟩,
            ⟨2, none, some "æ", "insertion", none, none⟩] u ∨
        (countE [(⟨0, some "ɪ", some "i", "substitution", none, none⟩ : VErr),
            ⟨1, some "ɪ", none, "omission", none, none⟩,
            ⟨2, none, some "æ", "insertion", none, none⟩] u =
          countE [(⟨0, some "ɪ", some "i", "substitution", none, none⟩ : VErr),
            ⟨1, some "ɪ", none, "omission", none, none⟩,
            ⟨2, none, some "æ", "insertion", none, none⟩] v ∧
          symRank u ≤ symRank v)) :=
  ⟨by decide, identify_focus_areas_spec _ (by decide)⟩

/-! ## The similarity ratio on identical sequences -/

namespace SeqMatch

/-- Length of the maximal run of non-popular elements of `a` ending at
index `r` (the value the `j2len` chain takes on the main diagonal). -/
def diagRun (a : List String) : Nat → Nat
  | 0 => if isPopular a (a.getD 0 "") then 0 else 1
  | r + 1 => if isPopular a (a.getD (r + 1) "") then 0 else diagRun a r + 1

lemma le_diagRun (a : List String) :
    ∀ (r k : Nat), k ≤ r + 1 →
      (∀ t, t < k → isPopular a (a.getD (r - t) "") = false) →
      k ≤ diagRun a r := by
  intro r
  induction r with
  | zero =>
    intro k hk hnp
    match k, hk with
    | 0, _ => exact Nat.zero_le _
    | 1, _ =>
      have h0 := hnp 0 (by omega)
      simp only [Nat.sub_zero] at h0
      simp only [diagRun, h0, Bool.false_eq_true, if_false]
      omega
  | succ r ih =>
    intro k hk hnp
    cases k with
    | zero => exact Nat.zero_le _
    | succ k =>
      have h0 := hnp 0 (by omega)
      simp only [Nat.sub_zero] at h0
      have hrec : k ≤ diagRun a r := by
        refine ih k (by omega) (fun t ht => ?_)
        have := hnp (t + 1) (by omega)
        rwa [show r + 1 - (t + 1) = r - t by omega] at this
      simp only [diagRun, h0, Bool.false_eq_true, if_false]
      omega

lemma ratioOf_nonneg (a b : List String) : 0 ≤ ratioOf a b := by
  unfold ratioOf
  split
  · norm_num
  · apply div_nonneg
    · positivity
    · positivity

lemma ratioOf_le_one (a b : List String) : ratioOf a b ≤ 1 := by
  unfold ratioOf
  split
  · exact le_refl 1
  · rename_i hne
    have hch := getMatchingBlocks_chained a b
    have hs := BlocksChained.sum_le _ 0 0 a.length b.length hch
      (Nat.zero_le _) (Nat.zero_le _)
    have hM : sumSizes (getMatchingBlocks a b) =
        sumSizes (mergeAdjAux 0 0 0
          (matchingBlocksRec a b (b2jOf b) (a.length + b.length + 1)
            0 a.length 0 b.length)) := by
      simp [getMatchingBlocks, sumSizes]
    rw [hM]
    have hpos : (0 : ℚ) < (a.length : ℚ) + (b.length : ℚ) := by
      have hlt : 0 < a.length + b.length := Nat.pos_of_ne_zero hne
      exact_mod_cast hlt
    rw [div_le_one hpos]
    have h2 : 2 * sumSizes (mergeAdjAux 0 0 0
        (matchingBlocksRec a b (b2jOf b) (a.length + b.length + 1)
          0 a.length 0 b.length)) ≤ a.length + b.length := by omega
    exact_mod_cast h2

lemma extendBack_stay (a b : List String) (alo blo : Nat) (m : Best)
    (h : m.bi = alo) : ∀ fuel, extendBack a b alo blo fuel m = m := by
  intro fuel
  cases fuel with
  | zero => rfl
  | succ f =>
    simp only [extendBack]
    rw [if_neg]
    intro hc
    omega

lemma extendFwd_stay (a b : List String) (ahi bhi : Nat) (m : Best)
    (h : ahi ≤ m.bi + m.bk) : ∀ fuel, extendFwd a b ahi bhi fuel m = m := by
  intro fuel
  cases fuel with
  | zero => rfl
  | succ f =>
    simp only [extendFwd]
    rw [if_neg]
    intro hc
    omega

lemma extendBack_diag (a : List String) :
    ∀ (d k : Nat), extendBack a a 0 0 d ⟨d, d, k⟩ = ⟨0, 0, k + d⟩ := by
  intro d
  induction d with
  | zero => intro k; rfl
  | succ d ih =>
    intro k
    simp only [extendBack]
    rw [if_pos ⟨Nat.succ_pos d, Nat.succ_pos d, trivial⟩]
    have hstep : (⟨d + 1 - 1, d + 1 - 1, k + 1⟩ : Best) = ⟨d, d, k + 1⟩ := by
      simp
    rw [hstep, ih (k + 1)]
    congr 1
    omega

lemma extendFwd_diag (a : List String) :
    ∀ (fuel K : Nat), a.length ≤ K + fuel → K ≤ a.length →
      extendFwd a a a.length a.length fuel ⟨0, 0, K⟩ = ⟨0, 0, a.length⟩ := by
  intro fuel
  induction fuel with
  | zero =>
    intro K h1 h2
    have : K = a.length := by omega
    subst this
    rfl
  | succ f ih =>
    intro K h1 h2
    by_cases hK : K < a.length
    · simp only [extendFwd]
      rw [if_pos ⟨by simpa using hK, by simpa using hK, trivial⟩]
      exact ih (K + 1) (by omega) (by omega)
    · have hKn : K = a.length := by omega
      subst hKn
      simp only [extendFwd]
      rw [if_neg]
      intro hc
      omega

lemma matchingBlocksRec_degenerate (a b : List String) (bb : String → List Nat)
    (fuel alo blo : Nat) : matchingBlocksRec a b bb fuel alo alo blo blo = [] := by
  cases fuel with
  | zero => rfl
  | succ f =>
    have hm : findLongestMatch a b bb alo alo blo blo = ⟨alo, blo, 0⟩ := by
      have hdef : findLongestMatch a b bb alo alo blo blo =
          extendFwd a b alo blo blo
            (extendBack a b alo blo
              (flmRows a bb blo blo (List.range' alo (alo - alo)) (fun _ => 0)
                ⟨alo, blo, 0⟩).bi
              (flmRows a bb blo blo (List.range' alo (alo - alo)) (fun _ => 0)
                ⟨alo, blo, 0⟩)) := rfl
      rw [hdef, Nat.sub_self]
      have h0 : flmRows a bb blo blo (List.range' alo 0) (fun _ => 0)
          ⟨alo, blo, 0⟩ = ⟨alo, blo, 0⟩ := rfl
      rw [h0, extendBack_stay a b alo blo _ rfl, extendFwd_stay a b alo blo _ (by simp)]
    simp only [matchingBlocksRec, hm]
    simp

end SeqMatch

namespace SeqMatch

lemma diagRun_popular (a : List String) (r : Nat)
    (h : isPopular a (a.getD r "") = true) : diagRun a r = 0 := by
  cases r with
  | zero => rw [diagRun, if_pos h]
  | succ r => rw [diagRun, if_pos h]

/-- `j ∈ js` for row `i` of the main loop (with `blo = 0`, `bhi = len a`,
`b = a`): the row value is non-popular, `j` is in range, and the elements
match. -/
lemma js_mem_iff (a : List String) (i j : Nat) :
    j ∈ (b2jOf a (a.getD i "")).filter
        (fun j => decide (0 ≤ j) && decide (j < a.length)) ↔
      isPopular a (a.getD i "") = false ∧ j < a.length ∧
        a.getD j "" = a.getD i "" := by
  rw [List.mem_filter]
  unfold b2jOf
  by_cases hp : isPopular a (a.getD i "") = true
  · rw [if_pos hp]
    constructor
    · rintro ⟨hmem, _⟩
      exact absurd hmem (List.not_mem_nil j)
    · rintro ⟨hfalse, _⟩
      rw [hp] at hfalse
      exact Bool.noConfusion hfalse
  · rw [if_neg hp]
    rw [Bool.not_eq_true] at hp
    unfold positionsIn
    rw [List.mem_filter, List.mem_range]
    constructor
    · rintro ⟨⟨hjn, hje⟩, _⟩
      exact ⟨hp, hjn, of_decide_eq_true hje⟩
    · rintro ⟨_, hjn, hje⟩
      refine ⟨⟨hjn, decide_eq_true hje⟩, ?_⟩
      simp [hjn]

lemma js_pairwise (a : List String) (x : String) :
    ((b2jOf a x).filter
      (fun j => decide (0 ≤ j) && decide (j < a.length))).Pairwise (· < ·) := by
  refine List.Pairwise.filter _ ?_
  unfold b2jOf
  split
  · exact List.Pairwise.nil
  · exact List.Pairwise.filter _ (List.pairwise_lt_range a.length)

/-- Invariant of one `j2len` row entering row `i` of the main loop on
`a` vs `a`: every nonzero entry `R j` is a chain of equal, non-popular
elements ending at column `j` of row `i - 1`. -/
def ChainInv (a : List String) (i : Nat) (R : Nat → Nat) : Prop :=
  ∀ j, R j ≠ 0 → j < a.length ∧ R j ≤ j + 1 ∧ R j ≤ i ∧
    ∀ t, t < R j → a.getD (j - t) "" = a.getD (i - 1 - t) "" ∧
      isPopular a (a.getD (j - t) "") = false

/-- Processing one row of the main loop on `a` vs `a` keeps the best match
on the diagonal: any off-diagonal chain is dominated by a diagonal run that
the best has already absorbed. -/
lemma flmInner_diag (a : List String) (i : Nat) (R : Nat → Nat)
    (hR : ChainInv a i R) (hRd : i = 0 ∨ diagRun a (i - 1) ≤ R (i - 1))
    (hi : i < a.length) :
    ∀ (L : List Nat) (N : Nat → Nat) (best : Best),
      L.Pairwise (· < ·) →
      (∀ j ∈ L, j < a.length ∧ a.getD j "" = a.getD i "" ∧
        isPopular a (a.getD i "") = false) →
      ChainInv a (i + 1) N →
      best.bi = best.bj →
      (∀ r, r < i → diagRun a r ≤ best.bk) →
      (i ∈ L ∨ (diagRun a i ≤ best.bk ∧ diagRun a i ≤ N i)) →
      (flmInner i R L N best).2.bi = (flmInner i R L N best).2.bj ∧
        (∀ r, r < i → diagRun a r ≤ (flmInner i R L N best).2.bk) ∧
        ChainInv a (i + 1) (flmInner i R L N best).1 ∧
        diagRun a i ≤ (flmInner i R L N best).2.bk ∧
        diagRun a i ≤ (flmInner i R L N best).1 i := by
  intro L
  induction L with
  | nil =>
    intro N best _ _ hN hbd hblo hacc
    rcases hacc with hmem | ⟨h1, h2⟩
    · exact absurd hmem (List.not_mem_nil i)
    · exact ⟨hbd, hblo, hN, h1, h2⟩
  | cons j L ih =>
    intro N best hpw hLmem hN hbd hblo hacc
    obtain ⟨hjn, hjval, hpop⟩ := hLmem j (List.mem_cons_self j L)
    have hLmem' : ∀ x ∈ L, x < a.length ∧ a.getD x "" = a.getD i "" ∧
        isPopular a (a.getD i "") = false :=
      fun x hx => hLmem x (List.mem_cons_of_mem j hx)
    have hpw' : L.Pairwise (· < ·) := hpw.of_cons
    have hjlt : ∀ x ∈ L, j < x := (List.pairwise_cons.mp hpw).1
    have hchain : ∀ t, t < (if j = 0 then 0 else R (j - 1)) + 1 →
        a.getD (j - t) "" = a.getD (i - t) "" ∧
        isPopular a (a.getD (j - t) "") = false := by
      intro t ht
      cases t with
      | zero =>
        simp only [Nat.sub_zero]
        refine ⟨hjval, ?_⟩
        rw [hjval]
        exact hpop
      | succ s =>
        by_cases hj0 : j = 0
        · rw [if_pos hj0] at ht
          omega
        · rw [if_neg hj0] at ht
          have hR0 : R (j - 1) ≠ 0 := by omega
          obtain ⟨h1, h2, h3, h4⟩ := hR (j - 1) hR0
          have hs := h4 s (by omega)
          have hjeq : j - (s + 1) = j - 1 - s := by omega
          have hieq : i - (s + 1) = i - 1 - s := by omega
          rw [hjeq, hieq]
          exact hs
    have hki : (if j = 0 then 0 else R (j - 1)) + 1 ≤ i + 1 := by
      by_cases hj0 : j = 0
      · rw [if_pos hj0]; omega
      · rw [if_neg hj0]
        by_cases hR0 : R (j - 1) = 0
        · rw [hR0]; omega
        · have := (hR (j - 1) hR0).2.2.1
          omega
    have hkj : (if j = 0 then 0 else R (j - 1)) + 1 ≤ j + 1 := by
      by_cases hj0 : j = 0
      · rw [if_pos hj0]; omega
      · rw [if_neg hj0]
        by_cases hR0 : R (j - 1) = 0
        · rw [hR0]; omega
        · have := (hR (j - 1) hR0).2.1
          omega
    have hN' : ChainInv a (i + 1)
        (fun j' => if j' = j then (if j = 0 then 0 else R (j - 1)) + 1 else N j') := by
      intro j' hj'
      simp only at hj' ⊢
      by_cases hjj : j' = j
      · rw [if_pos hjj] at hj' ⊢
        subst hjj
        refine ⟨hjn, hkj, hki, fun t ht => ?_⟩
        have h := hchain t ht
        rwa [show i + 1 - 1 - t = i - t by omega]
      · rw [if_neg hjj] at hj' ⊢
        exact hN j' hj'
    simp only [flmInner]
    generalize hKg : (if j = 0 then 0 else R (j - 1)) + 1 = K at hchain hki hkj hN' ⊢
    by_cases hij : j = i
    · -- the diagonal cell: here the chain value equals the diagonal run
      have hkD : K ≤ diagRun a i := by
        refine le_diagRun a i _ hki (fun t ht => ?_)
        have h := hchain t ht
        rw [← h.1]
        exact h.2
      have hDk : diagRun a i ≤ K := by
        rcases Nat.eq_zero_or_pos i with hi0 | hipos
        · rw [hi0]
          rw [hi0] at hpop
          rw [diagRun, if_neg (by rw [hpop]; exact Bool.noConfusion)]
          omega
        · obtain ⟨i', rfl⟩ : ∃ i', i = i' + 1 := ⟨i - 1, by omega⟩
          rw [diagRun, if_neg (by rw [hpop]; exact Bool.noConfusion)]
          rw [hij] at hKg
          rw [if_neg (Nat.succ_ne_zero i')] at hKg
          simp only [Nat.add_sub_cancel] at hKg
          rcases hRd with h0 | hd
          · exact absurd h0 (Nat.succ_ne_zero i')
          · simp only [Nat.add_sub_cancel] at hd
            omega
      refine ih _ _ hpw' hLmem' hN' ?_ ?_ ?_
      · split_ifs with hupd
        · dsimp only
          omega
        · exact hbd
      · intro r hr
        split_ifs with hupd
        · dsimp only
          have := hblo r hr
          omega
        · exact hblo r hr
      · refine Or.inr ⟨?_, ?_⟩
        · split_ifs with hupd
          · dsimp only
            exact hDk
          · omega
        · show diagRun a i ≤ if i = j then K else N i
          rw [if_pos hij.symm]
          exact hDk
    · -- off-diagonal cell: the best is never updated here
      have hnoupd : ¬ best.bk < K := by
        rcases Nat.lt_or_ge j i with hji | hji
        · have hDj : K ≤ diagRun a j :=
            le_diagRun a j _ hkj (fun t ht => (hchain t ht).2)
          have := hblo j hji
          omega
        · have hji' : i < j := by omega
          have hDb : diagRun a i ≤ best.bk := by
            rcases hacc with hmem | h
            · rcases List.mem_cons.mp hmem with he | hm
              · exact absurd he (by omega)
              · exact absurd (hjlt i hm) (by omega)
            · exact h.1
          have hkDi : K ≤ diagRun a i := by
            refine le_diagRun a i _ hki (fun t ht => ?_)
            have h := hchain t ht
            rw [← h.1]
            exact h.2
          omega
      rw [if_neg hnoupd]
      refine ih _ _ hpw' hLmem' hN' hbd hblo ?_
      rcases hacc with hmem | h
      · rcases List.mem_cons.mp hmem with he | hm
        · exact absurd he (fun hh => hij hh.symm)
        · exact Or.inl hm
      · refine Or.inr ⟨h.1, ?_⟩
        show diagRun a i ≤ if i = j then K else N i
        rw [if_neg (fun hh => hij hh.symm)]
        exact h.2

end SeqMatch

namespace SeqMatch

/-- The main loop of `find_longest_match` on `a` vs `a` (full ranges)
returns a best match sitting on the diagonal. -/
lemma flmRows_diag (a : List String) :
    ∀ (cnt i : Nat) (R : Nat → Nat) (best : Best),
      i + cnt = a.length →
      ChainInv a i R →
      (i = 0 ∨ diagRun a (i - 1) ≤ R (i - 1)) →
      best.bi = best.bj →
      (∀ r, r < i → diagRun a r ≤ best.bk) →
      (flmRows a (b2jOf a) 0 a.length (List.range' i cnt) R best).bi =
        (flmRows a (b2jOf a) 0 a.length (List.range' i cnt) R best).bj := by
  intro cnt
  induction cnt with
  | zero =>
    intro i R best hn hR hRd hbd hblo
    exact hbd
  | succ cnt ih =>
    intro i R best hn hR hRd hbd hblo
    rw [List.range'_succ]
    simp only [flmRows]
    have hi : i < a.length := by omega
    have hinner := flmInner_diag a i R hR hRd hi
      ((b2jOf a (a.getD i "")).filter
        (fun j => decide (0 ≤ j) && decide (j < a.length)))
      (fun _ => 0) best (js_pairwise a (a.getD i ""))
      (fun j hj => by
        have h := (js_mem_iff a i j).mp hj
        exact ⟨h.2.1, h.2.2, h.1⟩)
      (fun j hj => absurd rfl hj) hbd hblo
      (by
        by_cases hp : isPopular a (a.getD i "") = true
        · refine Or.inr ⟨?_, ?_⟩
          · rw [diagRun_popular a i hp]
            omega
          · rw [diagRun_popular a i hp]
        · rw [Bool.not_eq_true] at hp
          exact Or.inl ((js_mem_iff a i i).mpr ⟨hp, hi, rfl⟩))
    obtain ⟨h1, h2, h3, h4, h5⟩ := hinner
    refine ih (i + 1) _ _ (by omega) h3 (Or.inr ?_) h1 ?_
    · simp only [Nat.add_sub_cancel]
      exact h5
    · intro r hr
      rcases Nat.lt_succ_iff_lt_or_eq.mp hr with h | h
      · exact h2 r h
      · rw [h]
        exact h4

/-- `find_longest_match` over the full ranges of `a` vs `a` returns the
whole diagonal: the backward/forward extension loops (which ignore junk
and popularity) drive any diagonal best to `(0, 0, len a)`. -/
lemma findLongestMatch_self (a : List String) :
    findLongestMatch a a (b2jOf a) 0 a.length 0 a.length =
      ⟨0, 0, a.length⟩ := by
  have hdef : findLongestMatch a a (b2jOf a) 0 a.length 0 a.length =
      extendFwd a a a.length a.length a.length
        (extendBack a a 0 0
          (flmRows a (b2jOf a) 0 a.length (List.range' 0 (a.length - 0))
            (fun _ => 0) ⟨0, 0, 0⟩).bi
          (flmRows a (b2jOf a) 0 a.length (List.range' 0 (a.length - 0))
            (fun _ => 0) ⟨0, 0, 0⟩)) := rfl
  rw [hdef]
  have hd : (flmRows a (b2jOf a) 0 a.length (List.range' 0 (a.length - 0))
        (fun _ => 0) ⟨0, 0, 0⟩).bi =
      (flmRows a (b2jOf a) 0 a.length (List.range' 0 (a.length - 0))
        (fun _ => 0) ⟨0, 0, 0⟩).bj := by
    refine flmRows_diag a (a.length - 0) 0 (fun _ => 0) ⟨0, 0, 0⟩ (by omega)
      (fun j hj => absurd rfl hj) (Or.inl rfl) rfl (fun r hr => absurd hr (Nat.not_lt_zero r))
  have hbound := flmRows_inv a (b2jOf a) 0 0 a.length (a.length - 0) 0
    (fun _ => 0) ⟨0, 0, 0⟩ (le_refl 0)
    (fun j hj => absurd rfl hj)
    ⟨le_refl 0, le_refl 0, Nat.zero_le _, fun hk => absurd rfl hk, fun _ => ⟨rfl, rfl⟩⟩
  have hjk : (flmRows a (b2jOf a) 0 a.length (List.range' 0 (a.length - 0))
        (fun _ => 0) ⟨0, 0, 0⟩).bj +
      (flmRows a (b2jOf a) 0 a.length (List.range' 0 (a.length - 0))
        (fun _ => 0) ⟨0, 0, 0⟩).bk ≤ a.length := hbound.2.2.1
  set m := flmRows a (b2jOf a) 0 a.length (List.range' 0 (a.length - 0))
    (fun _ => 0) ⟨0, 0, 0⟩ with hm
  obtain ⟨bi, bj, bk⟩ := m
  dsimp only at hd hjk
  rw [hd]
  rw [extendBack_diag a bj bk]
  exact extendFwd_diag a a.length (bk + bj) (by omega) (by omega)

end SeqMatch

namespace SeqMatch

lemma getMatchingBlocks_self (a : List String) (hne : a ≠ []) :
    getMatchingBlocks a a = [(0, 0, a.length), (a.length, a.length, 0)] := by
  have hn : a.length ≠ 0 := fun h => hne (List.length_eq_zero.mp h)
  unfold getMatchingBlocks
  have hrec : matchingBlocksRec a a (b2jOf a) (a.length + a.length + 1)
      0 a.length 0 a.length = [(0, 0, a.length)] := by
    simp only [matchingBlocksRec, findLongestMatch_self]
    rw [if_neg hn]
    rw [matchingBlocksRec_degenerate]
    simp only [Nat.zero_add]
    rw [matchingBlocksRec_degenerate]
    simp
  rw [hrec]
  rw [mergeAdjAux]
  rw [if_pos ⟨rfl, rfl⟩]
  rw [mergeAdjAux]
  rw [if_pos (by omega : 0 + a.length ≠ 0)]
  simp

lemma ratioOf_self (a : List String) : ratioOf a a = 1 := by
  by_cases hne : a = []
  · subst hne
    rfl
  · have hn : a.length ≠ 0 := fun h => hne (List.length_eq_zero.mp h)
    unfold ratioOf
    rw [if_neg (by omega)]
    rw [getMatchingBlocks_self a hne]
    have hs : sumSizes [(0, 0, a.length), (a.length, a.length, 0)] = a.length := by
      simp [sumSizes]
    rw [hs]
    have hpos : (0 : ℚ) < (a.length : ℚ) := by
      exact_mod_cast Nat.pos_of_ne_zero hn
    rw [div_eq_one_iff_eq (by linarith)]
    ring

end SeqMatch

/-- C4 (amended): for all vowel sequences A and B the similarity returned by
`_compare_vowel_sequences` satisfies 0 ≤ sim(A,B) ≤ 1 and sim(A,A) = 1 and
sim([],[]) = 1; but for nonempty B, sim([],B) = 1 (the early return for an
empty expected sequence), not 0 as the spec claims. -/
theorem compare_similarity_bounds_amended :
    (∀ A B : List String, 0 ≤ (compareVowelSequences A B).1 ∧
      (compareVowelSequences A B).1 ≤ 1) ∧
    (∀ A : List String, (compareVowelSequences A A).1 = 1) ∧
    (compareVowelSequences [] []).1 = 1 ∧
    (∀ B : List String, B ≠ [] → (compareVowelSequences [] B).1 = 1) := by
  refine ⟨?_, ?_, rfl, fun B _ => rfl⟩
  · intro A B
    unfold compareVowelSequences
    by_cases hA : A = []
    · rw [if_pos hA]
      constructor
      · norm_num
      · norm_num
    · rw [if_neg hA]
      exact ⟨SeqMatch.ratioOf_nonneg A B, SeqMatch.ratioOf_le_one A B⟩
  · intro A
    by_cases hA : A = []
    · subst hA
      rfl
    · unfold compareVowelSequences
      rw [if_neg hA]
      exact SeqMatch.ratioOf_self A

/-- Witness for C4 at a concrete nonempty actual sequence. -/
theorem compare_similarity_bounds_amended_witness :
    (compareVowelSequences [] ["ɪ"]).1 = 1 :=
  compare_similarity_bounds_amended.2.2.2 ["ɪ"] (by decide)

/-- C4 counterexample: with an empty expected sequence and a nonempty actual
sequence the returned similarity is 1 (the `if not expected` early return),
whereas the claim requires 0. -/
theorem compare_empty_expected_cex :
    (compareVowelSequences [] ["ʊ"]).1 = 1 ∧ ((1 : ℚ) ≠ 0) :=
  ⟨rfl, one_ne_zero⟩
